import Mathlib

/-!
# MMbigint: a shallow embedding of `UnsignedBigint`

The C++ class `MMbigint::UnsignedBigint` (file `MMbigint.hpp`) stores a
`std::vector<int>` of base-`BASE` limbs, least significant first.  Below, the
vector is a `List Int`, a `std::string` is a `List Char`, `int` is a 32-bit
two's-complement integer (results of signed arithmetic are reduced by `int32`),
`unsigned int` is reduced by `uint32`, and `size_t` values are natural numbers.
An element access outside the vector, and every exception thrown by the
standard library, is reported as a `Fault`.
-/

namespace MMbigint

/-! ## Machine model -/

/-- Ways in which a call can fail to return a value. -/
inductive Fault where
  /-- Element access `v[i]` with `i` outside the vector. -/
  | undefined_behaviour
  /-- Exception `std::invalid_argument`, thrown by `std::stoi` when no digit was read. -/
  | invalid_argument
  /-- Exception `std::out_of_range`, thrown by `std::stoi` when the number does not fit `int`. -/
  | out_of_range
  /-- Exception `std::length_error`, thrown by `std::string(count, ch)` for an oversized count. -/
  | length_error
  deriving DecidableEq, Repr

/-- Modelled from the spec: the constant `BASE` is used by the class but its declaration is not
part of the header; the spec fixes it as the radix of the limb representation, `10^9`. -/
def BASE : Int := 1000000000

/-- Member constant `digit_length` (line 11). -/
def digit_length : Nat := 9

/-- Reduction of an integer to the 32-bit two's-complement range of `int`. -/
def int32 (x : Int) : Int := (x + 2147483648) % 4294967296 - 2147483648

/-- Reduction of an integer to the range of `unsigned int`. -/
def uint32 (x : Int) : Int := x % 4294967296

/-! ## Standard-library functions used by the class -/

/-- Function `std::isspace` in the "C" locale. -/
def isspace (c : Char) : Bool :=
  c.toNat = 32 || (9 ≤ c.toNat && c.toNat ≤ 13)

/-- Function `std::isdigit`. -/
def isdigit (c : Char) : Bool :=
  48 ≤ c.toNat && c.toNat ≤ 57

/-- Numeric value of a decimal digit character. -/
def digit_value (c : Char) : Nat := c.toNat - 48

/-- Decimal value of a sequence of digit characters, most significant first. -/
def decimal_value (s : List Char) : Nat :=
  s.foldl (fun acc c => 10 * acc + digit_value c) 0

/-- Function `std::stoi(str)` (base 10): skips leading whitespace, accepts one optional sign,
reads the longest run of digits, throws `std::invalid_argument` when that run is empty and
`std::out_of_range` when the number read is outside `int`. -/
def stoi (str : List Char) : Except Fault Int :=
  let s := str.dropWhile isspace
  let negative := s.head? = some '-'
  let s := if s.head? = some '-' ∨ s.head? = some '+' then s.tail else s
  let run := s.takeWhile isdigit
  if run = [] then .error .invalid_argument
  else
    let v : Int := if negative then -(decimal_value run : Int) else (decimal_value run : Int)
    if v < -2147483648 ∨ 2147483647 < v then .error .out_of_range else .ok v

/-- The run of digits that `std::stoi` reads from `str`: what follows the leading whitespace
and one optional sign, up to the first character that is not a digit. -/
def stoi_digit_run (str : List Char) : List Char :=
  let s := str.dropWhile isspace
  let s := if s.head? = some '-' ∨ s.head? = some '+' then s.tail else s
  s.takeWhile isdigit

/-- Function `std::to_string(int)`. -/
def std_to_string : Int → List Char
  | Int.ofNat n => Nat.toDigits 10 n
  | Int.negSucc n => '-' :: Nat.toDigits 10 (n + 1)

/-- Member `std::string::substr(pos, count)` for `pos` within the string. -/
def substr (s : List Char) (pos count : Nat) : List Char := (s.drop pos).take count

/-! ## The class -/

/-- Class `UnsignedBigint`: the limb vector `digits`, least significant limb first. -/
structure UnsignedBigint where
  digits : List Int
  deriving DecidableEq, Repr

/-- Loop of `remove_leading_zeros` (lines 15-17): `while (pos != 0 && digits[pos] == 0) pos--`. -/
def remove_leading_zeros_loop (digits : List Int) : Nat → Except Fault Nat
  | 0 => .ok 0
  | pos + 1 =>
    match digits[pos + 1]? with
    | none => .error .undefined_behaviour
    | some d => if d = 0 then remove_leading_zeros_loop digits pos else .ok (pos + 1)

/-- Method `remove_leading_zeros` (lines 13-19).  On an empty vector `digits.size() - 1` wraps
to the largest `size_t`, which is not `0`, so `digits[pos]` is read outside the vector. -/
def remove_leading_zeros (digits : List Int) : Except Fault (List Int) :=
  if digits.length = 0 then .error .undefined_behaviour
  else
    match remove_leading_zeros_loop digits (digits.length - 1) with
    | .error e => .error e
    | .ok pos => .ok (digits.take (pos + 1))

/-- Loop and return of `compare` (lines 28-32):
`while (digits[pos] == other.digits[pos] && pos != 0) --pos; return digits[pos] - other.digits[pos]`. -/
def compare_loop (digits other : List Int) : Nat → Except Fault Int
  | 0 =>
    match digits[0]?, other[0]? with
    | some x, some y => .ok (int32 (x - y))
    | _, _ => .error .undefined_behaviour
  | pos + 1 =>
    match digits[pos + 1]?, other[pos + 1]? with
    | some x, some y => if x = y then compare_loop digits other pos else .ok (int32 (x - y))
    | _, _ => .error .undefined_behaviour

/-- Method `compare` (lines 21-33).  The sizes are narrowed by `static_cast<int>` before they
are subtracted. -/
def UnsignedBigint.compare (self other : UnsignedBigint) : Except Fault Int :=
  if self.digits.length ≠ other.digits.length then
    .ok (int32 (int32 self.digits.length - int32 other.digits.length))
  else if self.digits.length = 0 then .error .undefined_behaviour
  else compare_loop self.digits other.digits (self.digits.length - 1)

/-- Default constructor (lines 36-38). -/
def UnsignedBigint.default : UnsignedBigint := ⟨[0]⟩

/-- Loop of the string constructor (lines 46-49), run for at most `fuel` iterations:
`while (pos >= digit_length) { pos -= digit_length; digits.push_back(stoi(substr(pos, digit_length))); }`.
Returns the final `pos` and `digits`. -/
def ofString_loop (number_str : List Char) : Nat → Nat → List Int → Except Fault (Nat × List Int)
  | 0, pos, digits => .ok (pos, digits)
  | fuel + 1, pos, digits =>
    if digit_length ≤ pos then
      match stoi (substr number_str (pos - digit_length) digit_length) with
      | .error e => .error e
      | .ok v => ofString_loop number_str fuel (pos - digit_length) (digits ++ [v])
    else .ok (pos, digits)

/-- Constructor `UnsignedBigint(const std::string &)` (lines 44-54).  The loop runs
`number_str.size() / digit_length` times, so `number_str.size()` iterations of fuel suffice. -/
def UnsignedBigint.ofString (number_str : List Char) : Except Fault UnsignedBigint :=
  match ofString_loop number_str number_str.length number_str.length [] with
  | .error e => .error e
  | .ok (pos, digits) =>
    if pos ≠ 0 then
      match stoi (substr number_str 0 pos) with
      | .error e => .error e
      | .ok v => (remove_leading_zeros (digits ++ [v])).map UnsignedBigint.mk
    else (remove_leading_zeros digits).map UnsignedBigint.mk

/-- Constructor `UnsignedBigint(const uint32_t)` (lines 40-42), for `number < 2^32`:
delegates to the string constructor on `std::to_string(number)`. -/
def UnsignedBigint.ofUInt32 (number : Nat) : Except Fault UnsignedBigint :=
  UnsignedBigint.ofString (Nat.toDigits 10 number)

/-- Loop of `to_string` (lines 60-67), from `pos` down to `1`, on the state
`(number_str, leading_zeros)`.  When `number_part` is longer than `digit_length` the count
`digit_length - number_part.size()` wraps and `std::string(count, '0')` throws. -/
def to_string_loop (digits : List Int) : Nat → List Char × List Char → Except Fault (List Char)
  | 0, (number_str, _) => .ok number_str
  | pos + 1, (number_str, leading_zeros) =>
    match digits[pos]? with
    | none => .error .undefined_behaviour
    | some d =>
      let number_part := std_to_string d
      if pos + 1 ≠ digits.length then
        if number_part.length ≤ digit_length then
          let leading_zeros := List.replicate (digit_length - number_part.length) '0'
          to_string_loop digits pos (number_str ++ (leading_zeros ++ number_part), leading_zeros)
        else .error .length_error
      else to_string_loop digits pos (number_str ++ (leading_zeros ++ number_part), leading_zeros)

/-- Method `to_string` (lines 56-69). -/
def UnsignedBigint.to_string (self : UnsignedBigint) : Except Fault (List Char) :=
  to_string_loop self.digits self.digits.length ([], [])

/-- Loop of `operator unsigned int` (lines 74-77) on the state `(number, base_power)`:
`number += base_power * digit; base_power *= BASE`, in `unsigned int` arithmetic. -/
def toUInt_loop : List Int → Int × Int → Int
  | [], (number, _) => number
  | digit :: rest, (number, base_power) =>
    toUInt_loop rest
      (uint32 (number + uint32 (base_power * uint32 digit)), uint32 (base_power * uint32 BASE))

/-- Conversion `operator unsigned int` (lines 71-79). -/
def UnsignedBigint.toUInt (self : UnsignedBigint) : Int :=
  toUInt_loop self.digits (0, 1)

/-- Member `std::vector::resize(count, value)`. -/
def resize (digits : List Int) (count : Nat) (v : Int) : List Int :=
  digits.take count ++ List.replicate (count - digits.length) v

/-- First loop of `operator+=` (lines 83-85): `digits[pos] += other.digits[pos]` for every
position of `other`, walking both vectors from position `0`. -/
def add_loop : List Int → List Int → Except Fault (List Int)
  | digits, [] => .ok digits
  | [], _ :: _ => .error .undefined_behaviour
  | d :: digits, o :: other =>
    match add_loop digits other with
    | .error e => .error e
    | .ok rest => .ok (int32 (d + o) :: rest)

/-- Second loop of `operator+=` (lines 86-91).  `prev` is the current content of
`digits[pos - 1]`, the list holds `digits[pos], digits[pos + 1], ...`:
`if (digits[pos - 1] >= BASE) { digits[pos - 1] -= BASE; ++digits[pos]; }`. -/
def carry_loop (prev : Int) : List Int → List Int
  | [] => [prev]
  | d :: rest =>
    if BASE ≤ prev then int32 (prev - BASE) :: carry_loop (int32 (d + 1)) rest
    else prev :: carry_loop d rest

/-- Operator `operator+=` (lines 81-94), for `other` a different object than the receiver
(the call `a += a` is `add_assign_self`). -/
def UnsignedBigint.add_assign (self other : UnsignedBigint) : Except Fault UnsignedBigint :=
  match add_loop (resize self.digits (max self.digits.length other.digits.length + 1) 0)
      other.digits with
  | .error e => .error e
  | .ok [] => (remove_leading_zeros []).map UnsignedBigint.mk
  | .ok (d :: rest) => (remove_leading_zeros (carry_loop d rest)).map UnsignedBigint.mk

/-- First loop of `operator-=` (lines 107-109): `digits[pos] -= other.digits[pos]` for every
position of `other`; a position outside `digits` is an out-of-range access. -/
def sub_loop : List Int → List Int → Except Fault (List Int)
  | digits, [] => .ok digits
  | [], _ :: _ => .error .undefined_behaviour
  | d :: digits, o :: other =>
    match sub_loop digits other with
    | .error e => .error e
    | .ok rest => .ok (int32 (d - o) :: rest)

/-- Second loop of `operator-=` (lines 110-115).  `prev` is the current content of
`digits[pos - 1]`, the list holds `digits[pos], digits[pos + 1], ...`:
`if (digits[pos - 1] < 0) { digits[pos - 1] += BASE; digits[pos]--; }`. -/
def borrow_loop (prev : Int) : List Int → List Int
  | [] => [prev]
  | d :: rest =>
    if prev < 0 then int32 (prev + BASE) :: borrow_loop (int32 (d - 1)) rest
    else prev :: borrow_loop d rest

/-- Operator `operator-=` (lines 106-118), for `other` a different object than the receiver
(the call `a -= a` is `sub_assign_self`). -/
def UnsignedBigint.sub_assign (self other : UnsignedBigint) : Except Fault UnsignedBigint :=
  match sub_loop self.digits other.digits with
  | .error e => .error e
  | .ok [] => (remove_leading_zeros []).map UnsignedBigint.mk
  | .ok (d :: rest) => (remove_leading_zeros (borrow_loop d rest)).map UnsignedBigint.mk

/-- First loop of `operator+=` in the call `a += a`, where `other` is the receiver itself:
the loop bound `other.digits.size()` is the size after the resize, and every limb, the new
top limb included, is added to itself. -/
def add_loop_self : List Int → List Int
  | [] => []
  | d :: digits => int32 (d + d) :: add_loop_self digits

/-- Operator `operator+=` (lines 81-94) in the call `a += a`. -/
def UnsignedBigint.add_assign_self (self : UnsignedBigint) : Except Fault UnsignedBigint :=
  match add_loop_self
      (resize self.digits (max self.digits.length self.digits.length + 1) 0) with
  | [] => (remove_leading_zeros []).map UnsignedBigint.mk
  | d :: rest => (remove_leading_zeros (carry_loop d rest)).map UnsignedBigint.mk

/-- First loop of `operator-=` in the call `a -= a`, where `other` is the receiver itself:
every limb is subtracted from itself. -/
def sub_loop_self : List Int → List Int
  | [] => []
  | d :: digits => int32 (d - d) :: sub_loop_self digits

/-- Operator `operator-=` (lines 106-118) in the call `a -= a`. -/
def UnsignedBigint.sub_assign_self (self : UnsignedBigint) : Except Fault UnsignedBigint :=
  match sub_loop_self self.digits with
  | [] => (remove_leading_zeros []).map UnsignedBigint.mk
  | d :: rest => (remove_leading_zeros (borrow_loop d rest)).map UnsignedBigint.mk

/-- Binary `operator+` (lines 162-164): `lhs` is a copy, the sum is `lhs += rhs`. -/
def UnsignedBigint.add (lhs rhs : UnsignedBigint) : Except Fault UnsignedBigint :=
  lhs.add_assign rhs

/-- Binary `operator-` (lines 166-168): `lhs` is a copy, the difference is `lhs -= rhs`. -/
def UnsignedBigint.sub (lhs rhs : UnsignedBigint) : Except Fault UnsignedBigint :=
  lhs.sub_assign rhs

/-- Prefix `operator++` (lines 96-98): `*this += 1`, the `1` converted by the `uint32_t`
constructor.  The result is both the new state and the returned reference. -/
def UnsignedBigint.pre_inc (self : UnsignedBigint) : Except Fault UnsignedBigint :=
  match UnsignedBigint.ofUInt32 1 with
  | .error e => .error e
  | .ok one => self.add_assign one

/-- Postfix `operator++` (lines 100-104): returns `(temp, new state)`. -/
def UnsignedBigint.post_inc (self : UnsignedBigint) :
    Except Fault (UnsignedBigint × UnsignedBigint) :=
  match self.pre_inc with
  | .error e => .error e
  | .ok s => .ok (self, s)

/-- Prefix `operator--` (lines 120-122): `*this -= 1`. -/
def UnsignedBigint.pre_dec (self : UnsignedBigint) : Except Fault UnsignedBigint :=
  match UnsignedBigint.ofUInt32 1 with
  | .error e => .error e
  | .ok one => self.sub_assign one

/-- Postfix `operator--` (lines 124-128): returns `(temp, new state)`. -/
def UnsignedBigint.post_dec (self : UnsignedBigint) :
    Except Fault (UnsignedBigint × UnsignedBigint) :=
  match self.pre_dec with
  | .error e => .error e
  | .ok s => .ok (self, s)

/-- Operator `operator==` (lines 138-140). -/
def UnsignedBigint.eq (lhs rhs : UnsignedBigint) : Except Fault Bool :=
  (lhs.compare rhs).map (fun c => decide (c = 0))

/-- Operator `operator!=` (lines 142-144). -/
def UnsignedBigint.ne (lhs rhs : UnsignedBigint) : Except Fault Bool :=
  (lhs.compare rhs).map (fun c => decide (c ≠ 0))

/-- Operator `operator<` (lines 146-148). -/
def UnsignedBigint.lt (lhs rhs : UnsignedBigint) : Except Fault Bool :=
  (lhs.compare rhs).map (fun c => decide (c < 0))

/-- Operator `operator>` (lines 150-152). -/
def UnsignedBigint.gt (lhs rhs : UnsignedBigint) : Except Fault Bool :=
  (lhs.compare rhs).map (fun c => decide (0 < c))

/-- Operator `operator<=` (lines 154-156). -/
def UnsignedBigint.le (lhs rhs : UnsignedBigint) : Except Fault Bool :=
  (lhs.compare rhs).map (fun c => decide (c ≤ 0))

/-- Operator `operator>=` (lines 158-160). -/
def UnsignedBigint.ge (lhs rhs : UnsignedBigint) : Except Fault Bool :=
  (lhs.compare rhs).map (fun c => decide (0 ≤ c))

/-! ## Specification vocabulary -/

/-- The integer denoted by a limb sequence: the sum of `digits[i] * BASE^i`. -/
def limbs_value : List Int → Int
  | [] => 0
  | d :: rest => d + BASE * limbs_value rest

/-- The integer denoted by a value. -/
def UnsignedBigint.value (a : UnsignedBigint) : Int := limbs_value a.digits

/-- Canonical form: the limb list is non-empty, every limb lies in `[0, BASE)`, and the top
limb is non-zero unless the list has length one. -/
def UnsignedBigint.canonical (a : UnsignedBigint) : Prop :=
  a.digits ≠ [] ∧ (∀ d ∈ a.digits, 0 ≤ d ∧ d < BASE) ∧
    (a.digits.length = 1 ∨ a.digits.getLast? ≠ some 0)

instance (a : UnsignedBigint) : Decidable a.canonical :=
  inferInstanceAs (Decidable (a.digits ≠ [] ∧ (∀ d ∈ a.digits, 0 ≤ d ∧ d < BASE) ∧
    (a.digits.length = 1 ∨ a.digits.getLast? ≠ some 0)))

/-- A limb below the top as a decimal chunk: its numeral, left-padded with the character `0`
to `digit_length` characters. -/
def padded_chunk (d : Int) : List Char :=
  List.replicate (digit_length - (std_to_string d).length) '0' ++ std_to_string d

/-- The padded chunks of a run of limbs, most significant limb first. -/
def padded_chunks : List Int → List Char
  | [] => []
  | d :: rest => padded_chunks rest ++ padded_chunk d

/-- A digit string with its leading zeros removed; the string `0` when nothing else is left. -/
def strip_leading_zeros (s : List Char) : List Char :=
  if s.dropWhile (fun c => c = '0') = [] then ['0'] else s.dropWhile (fun c => c = '0')

/-- Horner evaluation of the limbs in base `BASE`, from the top limb down, in a 32-bit
unsigned accumulator that wraps around. -/
def horner_wrap : List Int → Int
  | [] => 0
  | d :: rest => uint32 (uint32 (horner_wrap rest * BASE) + uint32 d)

/-! ## Intermediate states of `operator+=` and `operator-=` -/

/-- The limb vector of the receiver of `operator+=` after its two loops (lines 82-91), before
`remove_leading_zeros` runs. -/
def UnsignedBigint.add_untrimmed (self other : UnsignedBigint) : Except Fault (List Int) :=
  match add_loop (resize self.digits (max self.digits.length other.digits.length + 1) 0)
      other.digits with
  | .error e => .error e
  | .ok [] => .ok []
  | .ok (d :: rest) => .ok (carry_loop d rest)

/-- The limb vector of the receiver of `operator-=` after its two loops (lines 107-115),
before `remove_leading_zeros` runs. -/
def UnsignedBigint.sub_untrimmed (self other : UnsignedBigint) : Except Fault (List Int) :=
  match sub_loop self.digits other.digits with
  | .error e => .error e
  | .ok [] => .ok []
  | .ok (d :: rest) => .ok (borrow_loop d rest)

/-- The states of the limb vector during the first loop of `operator+=` (lines 83-85): the
vector before each iteration and the vector when the loop ends.  `done` holds the limbs below
`pos`, the two lists the limbs of the receiver and of `other` from `pos` on. -/
def add_loop_states (done : List Int) : List Int → List Int → List (List Int)
  | digits, [] => [done ++ digits]
  | [], _ :: _ => [done]
  | d :: digits, o :: other =>
    (done ++ d :: digits) :: add_loop_states (done ++ [int32 (d + o)]) digits other

/-- The exact sums `digits[pos] + other.digits[pos]` formed by the first loop of `operator+=`,
before their reduction to `int`. -/
def add_loop_raw : List Int → List Int → List Int
  | _, [] => []
  | [], _ :: _ => []
  | d :: digits, o :: other => (d + o) :: add_loop_raw digits other

/-- The states of the limb vector during the second loop of `operator+=` (lines 86-91): the
vector before each iteration, the vector between the two writes of an iteration that carries,
and the vector when the loop ends.  `done` holds the limbs below `pos - 1`, `prev` is
`digits[pos - 1]`, the list holds the limbs from `pos` on. -/
def carry_loop_states (done : List Int) (prev : Int) : List Int → List (List Int)
  | [] => [done ++ [prev]]
  | d :: rest =>
    if BASE ≤ prev then
      (done ++ prev :: d :: rest) :: (done ++ int32 (prev - BASE) :: d :: rest) ::
        carry_loop_states (done ++ [int32 (prev - BASE)]) (int32 (d + 1)) rest
    else (done ++ prev :: d :: rest) :: carry_loop_states (done ++ [prev]) d rest

/-- The exact results `digits[pos - 1] - BASE` and `digits[pos] + 1` formed by the second loop
of `operator+=`, before their reduction to `int`. -/
def carry_loop_raw (prev : Int) : List Int → List Int
  | [] => []
  | d :: rest =>
    if BASE ≤ prev then (prev - BASE) :: (d + 1) :: carry_loop_raw (int32 (d + 1)) rest
    else carry_loop_raw d rest

/-- The carries of the second loop of `operator+=`: for each iteration, the amount by which
`digits[pos]` is raised (`0` when the test fails). -/
def carry_loop_carries (prev : Int) : List Int → List Int
  | [] => []
  | d :: rest =>
    if BASE ≤ prev then (int32 (d + 1) - d) :: carry_loop_carries (int32 (d + 1)) rest
    else 0 :: carry_loop_carries d rest

/-- The states of the limb vector during the first loop of `operator-=` (lines 107-109): the
vector before each iteration and the vector when the loop ends. -/
def sub_loop_states (done : List Int) : List Int → List Int → List (List Int)
  | digits, [] => [done ++ digits]
  | [], _ :: _ => [done]
  | d :: digits, o :: other =>
    (done ++ d :: digits) :: sub_loop_states (done ++ [int32 (d - o)]) digits other

/-- The exact differences `digits[pos] - other.digits[pos]` formed by the first loop of
`operator-=`, before their reduction to `int`. -/
def sub_loop_raw : List Int → List Int → List Int
  | _, [] => []
  | [], _ :: _ => []
  | d :: digits, o :: other => (d - o) :: sub_loop_raw digits other

/-- The states of the limb vector during the second loop of `operator-=` (lines 110-115): the
vector before each iteration, the vector between the two writes of an iteration that
borrows, and the vector when the loop ends. -/
def borrow_loop_states (done : List Int) (prev : Int) : List Int → List (List Int)
  | [] => [done ++ [prev]]
  | d :: rest =>
    if prev < 0 then
      (done ++ prev :: d :: rest) :: (done ++ int32 (prev + BASE) :: d :: rest) ::
        borrow_loop_states (done ++ [int32 (prev + BASE)]) (int32 (d - 1)) rest
    else (done ++ prev :: d :: rest) :: borrow_loop_states (done ++ [prev]) d rest

/-- The exact results `digits[pos - 1] + BASE` and `digits[pos] - 1` formed by the second loop
of `operator-=`, before their reduction to `int`. -/
def borrow_loop_raw (prev : Int) : List Int → List Int
  | [] => []
  | d :: rest =>
    if prev < 0 then (prev + BASE) :: (d - 1) :: borrow_loop_raw (int32 (d - 1)) rest
    else borrow_loop_raw d rest

/-- The borrows of the second loop of `operator-=`: for each iteration, the amount by which
`digits[pos]` is lowered (`0` when the test fails). -/
def borrow_loop_borrows (prev : Int) : List Int → List Int
  | [] => []
  | d :: rest =>
    if prev < 0 then (d - int32 (d - 1)) :: borrow_loop_borrows (int32 (d - 1)) rest
    else 0 :: borrow_loop_borrows d rest

/-! ## Windows of the string constructor -/

/-- The windows of a string as the parsing algorithm cuts them: the full windows of
`digit_length` characters taken from the right end leftwards, least significant first, then
the remaining leftmost characters when their number is not zero. -/
def windows (s : List Char) : List (List Char) :=
  (List.range (s.length / digit_length)).map
      (fun k => substr s (s.length - digit_length * (k + 1)) digit_length) ++
    (if s.length % digit_length ≠ 0 then [substr s 0 (s.length % digit_length)] else [])

/-- The limbs that `std::stoi` reads from a list of windows, converted in order; the first
exception ends the conversion. -/
def stoi_windows : List (List Char) → Except Fault (List Int)
  | [] => .ok []
  | w :: ws =>
    match stoi w with
    | .error e => .error e
    | .ok v =>
      match stoi_windows ws with
      | .error e => .error e
      | .ok vs => .ok (v :: vs)

theorem int32_eq_self {x : Int} (h1 : -2147483648 ≤ x) (h2 : x < 2147483648) : int32 x = x := by
  unfold int32; omega

theorem BASE_eq : BASE = 1000000000 := rfl

theorem BASE_pos : (0 : Int) < BASE := by decide

theorem BASE_pow_pos (n : Nat) : (0 : Int) < BASE ^ n := pow_pos BASE_pos n

theorem limbs_value_nil : limbs_value [] = 0 := rfl

theorem limbs_value_cons (d : Int) (l : List Int) :
    limbs_value (d :: l) = d + BASE * limbs_value l := rfl

theorem limbs_value_append (l m : List Int) :
    limbs_value (l ++ m) = limbs_value l + BASE ^ l.length * limbs_value m := by
  induction l with
  | nil => simp [limbs_value]
  | cons d l ih =>
    rw [List.cons_append, limbs_value_cons, limbs_value_cons, ih, List.length_cons, pow_succ]
    ring

theorem limbs_value_replicate_zero (k : Nat) : limbs_value (List.replicate k 0) = 0 := by
  induction k with
  | zero => rfl
  | succ k ih => simp [List.replicate_succ, limbs_value, ih]

theorem limbs_value_bounds (l : List Int) (h : ∀ d ∈ l, 0 ≤ d ∧ d < BASE) :
    0 ≤ limbs_value l ∧ limbs_value l < BASE ^ l.length := by
  induction l with
  | nil => simp [limbs_value]
  | cons d l ih =>
    have hd := h d (List.mem_cons_self _ _)
    have ih' := ih (fun x hx => h x (List.mem_cons_of_mem _ hx))
    simp only [limbs_value, List.length_cons, pow_succ]
    have hB := BASE_pos
    constructor
    · have := mul_nonneg hB.le ih'.1
      linarith
    · have h1 : limbs_value l + 1 ≤ BASE ^ l.length := ih'.2
      have := mul_le_mul_of_nonneg_left h1 hB.le
      linarith


/-! ### remove_leading_zeros -/

theorem remove_leading_zeros_loop_le (l : List Int) :
    ∀ pos, pos < l.length → ∃ p, remove_leading_zeros_loop l pos = .ok p ∧ p ≤ pos := by
  intro pos
  induction pos with
  | zero => intro _; exact ⟨0, rfl, le_refl _⟩
  | succ pos ih =>
    intro h
    simp only [remove_leading_zeros_loop, List.getElem?_eq_getElem h]
    split
    · obtain ⟨p, hp, hle⟩ := ih (by omega)
      exact ⟨p, hp, by omega⟩
    · exact ⟨pos + 1, rfl, le_refl _⟩

theorem remove_leading_zeros_loop_append (l m : List Int) :
    ∀ pos, pos < l.length →
      remove_leading_zeros_loop (l ++ m) pos = remove_leading_zeros_loop l pos := by
  intro pos
  induction pos with
  | zero => intro _; rfl
  | succ pos ih =>
    intro h
    simp only [remove_leading_zeros_loop, List.getElem?_append_left h]
    rw [ih (by omega)]

theorem remove_leading_zeros_singleton (t : Int) : remove_leading_zeros [t] = .ok [t] := rfl

theorem remove_leading_zeros_snoc_zero (l : List Int) (hne : l ≠ []) :
    remove_leading_zeros (l ++ [0]) = remove_leading_zeros l := by
  have hlen : 0 < l.length := List.length_pos.mpr hne
  obtain ⟨n, hn⟩ : ∃ n, l.length = n + 1 := ⟨l.length - 1, by omega⟩
  obtain ⟨p, hp, hle⟩ := remove_leading_zeros_loop_le l n (by omega)
  have h1 : (l ++ [0])[n + 1]? = some (0 : Int) := by
    rw [← hn]; simp
  simp only [remove_leading_zeros, List.length_append, List.length_singleton, hn,
    Nat.add_sub_cancel, remove_leading_zeros_loop, h1, ite_true,
    remove_leading_zeros_loop_append l [0] n (by omega), hp]
  simp only [Nat.add_eq_zero, one_ne_zero, and_false, ite_false]
  rw [List.take_append_of_le_length (by omega)]

theorem remove_leading_zeros_snoc_ne (l : List Int) (t : Int) (ht : t ≠ 0) :
    remove_leading_zeros (l ++ [t]) = .ok (l ++ [t]) := by
  cases l with
  | nil => rfl
  | cons d l =>
    have h1 : (d :: l ++ [t])[l.length + 1]? = some t := by
      rw [show l.length + 1 = (d :: l).length from rfl]; simp
    simp only [remove_leading_zeros, List.length_append, List.length_singleton, List.length_cons,
      Nat.add_sub_cancel, remove_leading_zeros_loop, h1, ht, ite_false]
    simp only [Nat.add_eq_zero, one_ne_zero, and_false, ite_false]
    rw [List.take_of_length_le (by simp)]

/-- Shape of the result of `remove_leading_zeros` on a non-empty vector. -/
theorem remove_leading_zeros_shape (l : List Int) (hne : l ≠ []) :
    ∃ r k, remove_leading_zeros l = .ok r ∧ l = r ++ List.replicate k 0 ∧ r ≠ [] ∧
      (r.length = 1 ∨ r.getLast? ≠ some 0) := by
  induction l using List.reverseRecOn with
  | nil => exact absurd rfl hne
  | append_singleton l t ih =>
    by_cases ht : t = 0
    · subst ht
      by_cases hl : l = []
      · subst hl
        exact ⟨[0], 0, rfl, by simp, by simp, Or.inl rfl⟩
      · obtain ⟨r, k, h1, h2, h3, h4⟩ := ih hl
        refine ⟨r, k + 1, ?_, ?_, h3, h4⟩
        · rw [remove_leading_zeros_snoc_zero l hl, h1]
        · conv_lhs => rw [h2]
          rw [List.append_assoc, List.replicate_succ', ]
    · refine ⟨l ++ [t], 0, remove_leading_zeros_snoc_ne l t ht, by simp, by simp, Or.inr ?_⟩
      simp [ht]


/-! ### operator+= -/

theorem add_loop_cons (d o : Int) (ds os : List Int) :
    add_loop (d :: ds) (o :: os) =
      match add_loop ds os with
      | .error e => .error e
      | .ok rest => .ok (int32 (d + o) :: rest) := rfl

theorem carry_loop_nil (prev : Int) : carry_loop prev [] = [prev] := rfl

theorem carry_loop_cons (prev d : Int) (rest : List Int) :
    carry_loop prev (d :: rest) =
      if BASE ≤ prev then int32 (prev - BASE) :: carry_loop (int32 (d + 1)) rest
      else prev :: carry_loop d rest := rfl

theorem add_loop_nil_right (ds : List Int) : add_loop ds [] = .ok ds := by
  cases ds <;> rfl

theorem add_loop_spec : ∀ (ds os : List Int), os.length ≤ ds.length →
    (∀ d ∈ ds, 0 ≤ d ∧ d < BASE) → (∀ d ∈ os, 0 ≤ d ∧ d < BASE) →
    ∃ r, add_loop ds os = .ok r ∧ r.length = ds.length ∧
      (∀ d ∈ r, 0 ≤ d ∧ d ≤ 2 * BASE - 2) ∧
      limbs_value r = limbs_value ds + limbs_value os := by
  intro ds
  induction ds with
  | nil =>
    intro os hlen _ _
    have : os = [] := List.length_eq_zero.mp (by simpa using hlen)
    subst this
    exact ⟨[], rfl, rfl, by simp, by simp [limbs_value_nil]⟩
  | cons d ds ih =>
    intro os hlen hds hos
    cases os with
    | nil =>
      refine ⟨d :: ds, rfl, rfl, ?_, by simp [limbs_value_nil]⟩
      intro x hx
      have := hds x hx
      rw [BASE_eq] at this ⊢
      omega
    | cons o os =>
      have hd := hds d (List.mem_cons_self _ _)
      have ho := hos o (List.mem_cons_self _ _)
      obtain ⟨r, h1, h2, h3, h4⟩ := ih os (by simpa using hlen)
        (fun x hx => hds x (List.mem_cons_of_mem _ hx))
        (fun x hx => hos x (List.mem_cons_of_mem _ hx))
      rw [BASE_eq] at hd ho
      have hw : int32 (d + o) = d + o := int32_eq_self (by omega) (by omega)
      refine ⟨(d + o) :: r, ?_, by simp [h2], ?_, ?_⟩
      · simp only [add_loop, h1, hw]
      · intro x hx
        rcases List.mem_cons.mp hx with rfl | hx
        · rw [BASE_eq]; omega
        · exact h3 x hx
      · rw [limbs_value_cons, limbs_value_cons, limbs_value_cons, h4]; ring

theorem add_loop_append : ∀ (xs os r zs : List Int), add_loop xs os = .ok r →
    add_loop (xs ++ zs) os = .ok (r ++ zs) := by
  intro xs
  induction xs with
  | nil =>
    intro os r zs h
    cases os with
    | nil =>
      rw [add_loop_nil_right] at h ⊢
      cases h; rfl
    | cons o os => simp [add_loop] at h
  | cons d xs ih =>
    intro os r zs h
    cases os with
    | nil =>
      rw [add_loop_nil_right] at h ⊢
      cases h; rfl
    | cons o os =>
      simp only [add_loop] at h
      cases h' : add_loop xs os with
      | error e => simp [h'] at h
      | ok rest =>
        simp only [h'] at h
        cases h
        rw [List.cons_append, add_loop_cons, ih os rest zs h']
        rfl

theorem carry_loop_spec : ∀ (mid : List Int) (prev : Int), 0 ≤ prev → prev ≤ 2 * BASE - 1 →
    (∀ d ∈ mid, 0 ≤ d ∧ d ≤ 2 * BASE - 2) →
    (∀ d ∈ carry_loop prev (mid ++ [0]), 0 ≤ d ∧ d < BASE) ∧
      limbs_value (carry_loop prev (mid ++ [0])) = limbs_value (prev :: (mid ++ [0])) ∧
      carry_loop prev (mid ++ [0]) ≠ [] := by
  intro mid
  induction mid with
  | nil =>
    intro prev h0 h1 _
    rw [BASE_eq] at h1
    rw [List.nil_append, carry_loop_cons, carry_loop_nil, carry_loop_nil]
    by_cases hc : BASE ≤ prev
    · have hc' := hc
      rw [BASE_eq] at hc'
      have hw : int32 (prev - BASE) = prev - BASE := by
        rw [BASE_eq]; exact int32_eq_self (by omega) (by omega)
      have hw1 : int32 (0 + 1) = 1 := rfl
      simp only [hc, ite_true, hw, hw1]
      refine ⟨?_, ?_, by simp⟩
      · intro x hx
        simp only [List.mem_cons, List.mem_singleton, List.not_mem_nil, or_false] at hx
        rcases hx with rfl | rfl <;> rw [BASE_eq] <;> omega
      · simp only [limbs_value_cons, limbs_value_nil]; ring
    · simp only [hc, ite_false]
      refine ⟨?_, trivial, by simp⟩
      intro x hx
      simp only [List.mem_cons, List.mem_singleton, List.not_mem_nil, or_false] at hx
      rw [BASE_eq] at hc ⊢
      rcases hx with rfl | rfl <;> omega
  | cons d mid ih =>
    intro prev h0 h1 hmid
    have hd := hmid d (List.mem_cons_self _ _)
    have hmid' : ∀ x ∈ mid, 0 ≤ x ∧ x ≤ 2 * BASE - 2 :=
      fun x hx => hmid x (List.mem_cons_of_mem _ hx)
    rw [BASE_eq] at h1 hd
    rw [List.cons_append, carry_loop_cons]
    by_cases hc : BASE ≤ prev
    · have hc' := hc
      rw [BASE_eq] at hc'
      have hw : int32 (prev - BASE) = prev - BASE := by
        rw [BASE_eq]; exact int32_eq_self (by omega) (by omega)
      have hw1 : int32 (d + 1) = d + 1 := int32_eq_self (by omega) (by omega)
      simp only [hc, ite_true, hw, hw1]
      obtain ⟨i1, i2, i3⟩ := ih (d + 1) (by omega) (by rw [BASE_eq]; omega) hmid'
      refine ⟨?_, ?_, by simp⟩
      · intro x hx
        rcases List.mem_cons.mp hx with rfl | hx
        · rw [BASE_eq]; omega
        · exact i1 x hx
      · rw [limbs_value_cons, i2]
        simp only [limbs_value_cons]; ring
    · simp only [hc, ite_false]
      obtain ⟨i1, i2, i3⟩ := ih d (by omega) (by rw [BASE_eq]; omega) hmid'
      refine ⟨?_, ?_, by simp⟩
      · intro x hx
        rcases List.mem_cons.mp hx with rfl | hx
        · rw [BASE_eq] at hc ⊢; omega
        · exact i1 x hx
      · rw [limbs_value_cons, i2]
        simp only [limbs_value_cons]

theorem canonical_of_shape (l r : List Int) (k : Nat) (h2 : l = r ++ List.replicate k 0)
    (h3 : r ≠ []) (h4 : r.length = 1 ∨ r.getLast? ≠ some 0)
    (hl : ∀ d ∈ l, 0 ≤ d ∧ d < BASE) :
    (UnsignedBigint.mk r).canonical ∧ limbs_value r = limbs_value l := by
  refine ⟨⟨h3, ?_, h4⟩, ?_⟩
  · intro d hd
    exact hl d (by rw [h2]; exact List.mem_append_left _ hd)
  · rw [h2, limbs_value_append, limbs_value_replicate_zero]; ring

/-- On a non-empty vector of limbs in `[0, BASE)`, `remove_leading_zeros` returns a canonical
vector denoting the same integer. -/
theorem remove_leading_zeros_spec (l : List Int) (hne : l ≠ [])
    (hl : ∀ d ∈ l, 0 ≤ d ∧ d < BASE) :
    ∃ r, remove_leading_zeros l = .ok r ∧ (UnsignedBigint.mk r).canonical ∧
      limbs_value r = limbs_value l := by
  obtain ⟨r, k, h1, h2, h3, h4⟩ := remove_leading_zeros_shape l hne
  exact ⟨r, h1, canonical_of_shape l r k h2 h3 h4 hl⟩

theorem resize_grow (l : List Int) (n : Nat) (h : l.length ≤ n) :
    resize l (n + 1) 0 = (l ++ List.replicate (n - l.length) 0) ++ [0] := by
  unfold resize
  rw [List.take_of_length_le (by omega), show n + 1 - l.length = (n - l.length) + 1 by omega,
    List.replicate_succ', List.append_assoc]

theorem add_assign_spec (a b : UnsignedBigint) (ha : a.digits ≠ [])
    (hra : ∀ d ∈ a.digits, 0 ≤ d ∧ d < BASE) (hrb : ∀ d ∈ b.digits, 0 ≤ d ∧ d < BASE) :
    ∃ r, a.add_assign b = .ok r ∧ r.canonical ∧ r.value = a.value + b.value := by
  set n := max a.digits.length b.digits.length with hn
  have hxs : ∀ d ∈ a.digits ++ List.replicate (n - a.digits.length) 0, 0 ≤ d ∧ d < BASE := by
    intro d hd
    rcases List.mem_append.mp hd with hd | hd
    · exact hra d hd
    · rw [List.eq_of_mem_replicate hd]; exact ⟨le_refl _, BASE_pos⟩
  obtain ⟨r, h1, h2, h3, h4⟩ := add_loop_spec
    (a.digits ++ List.replicate (n - a.digits.length) 0) b.digits
    (by simp only [List.length_append, List.length_replicate]; omega) hxs hrb
  have hstep := add_loop_append _ _ _ [0] h1
  have hrlen : 0 < r.length := by
    rw [h2]; simp only [List.length_append]
    have := List.length_pos.mpr ha; omega
  obtain ⟨d, mid, rfl⟩ : ∃ d mid, r = d :: mid := by
    cases r with
    | nil => simp at hrlen
    | cons d mid => exact ⟨d, mid, rfl⟩
  have hd := h3 d (List.mem_cons_self _ _)
  obtain ⟨c1, c2, c3⟩ := carry_loop_spec mid d hd.1 (by have := hd.2; omega)
    (fun x hx => h3 x (List.mem_cons_of_mem _ hx))
  obtain ⟨t, t1, t2, t3⟩ := remove_leading_zeros_spec _ c3 c1
  refine ⟨⟨t⟩, ?_, t2, ?_⟩
  · unfold UnsignedBigint.add_assign
    rw [← hn, resize_grow _ _ (le_max_left _ _), hstep]
    simp only [List.cons_append, t1]
    rfl
  · show limbs_value t = limbs_value a.digits + limbs_value b.digits
    rw [t3, c2, ← List.cons_append, limbs_value_append, h4, limbs_value_append,
      limbs_value_replicate_zero]
    simp only [limbs_value_cons, limbs_value_nil]; ring


/-! ### Canonical vectors and the integers they denote -/

theorem canonical_snoc (a : UnsignedBigint) (h : a.canonical) (h2 : 2 ≤ a.digits.length) :
    ∃ init t, a.digits = init ++ [t] ∧ 1 ≤ t ∧ t < BASE ∧ (∀ d ∈ init, 0 ≤ d ∧ d < BASE) := by
  obtain ⟨h1, hr, ht⟩ := h
  rcases List.eq_nil_or_concat a.digits with hnil | ⟨init, t, hc⟩
  · exact absurd hnil h1
  · rw [List.concat_eq_append] at hc
    have hmem := hr t (by rw [hc]; simp)
    have hne : t ≠ 0 := by
      rcases ht with ht | ht
      · omega
      · intro h0; apply ht; rw [hc, h0]; simp
    refine ⟨init, t, hc, by omega, hmem.2, ?_⟩
    intro d hd
    exact hr d (by rw [hc]; exact List.mem_append_left _ hd)

theorem canonical_value_ge (a : UnsignedBigint) (h : a.canonical) (h2 : 2 ≤ a.digits.length) :
    BASE ^ (a.digits.length - 1) ≤ a.value := by
  obtain ⟨init, t, hc, ht, _, hin⟩ := canonical_snoc a h h2
  unfold UnsignedBigint.value
  rw [hc, limbs_value_append, List.length_append, List.length_singleton, Nat.add_sub_cancel,
    limbs_value_cons, limbs_value_nil]
  have h0 := (limbs_value_bounds init hin).1
  have hp := BASE_pow_pos init.length
  nlinarith

theorem canonical_value_bounds (a : UnsignedBigint) (h : a.canonical) :
    0 ≤ a.value ∧ a.value < BASE ^ a.digits.length :=
  limbs_value_bounds a.digits h.2.1

theorem canonical_length_lt (a b : UnsignedBigint) (ha : a.canonical) (hb : b.canonical)
    (hlen : a.digits.length < b.digits.length) : a.value < b.value := by
  have h1 := (canonical_value_bounds a ha).2
  have hpos : 0 < a.digits.length := List.length_pos.mpr ha.1
  have h2 := canonical_value_ge b hb (by omega)
  have h3 : BASE ^ a.digits.length ≤ BASE ^ (b.digits.length - 1) :=
    pow_le_pow_right₀ (by decide) (by omega)
  linarith

theorem limbs_eq_of_value_eq : ∀ (l m : List Int), l.length = m.length →
    (∀ d ∈ l, 0 ≤ d ∧ d < BASE) → (∀ d ∈ m, 0 ≤ d ∧ d < BASE) →
    limbs_value l = limbs_value m → l = m := by
  intro l
  induction l with
  | nil =>
    intro m hlen _ _ _
    exact (List.length_eq_zero.mp hlen.symm).symm
  | cons d l ih =>
    intro m hlen hl hm hv
    cases m with
    | nil => simp at hlen
    | cons e m =>
      have hd := hl d (List.mem_cons_self _ _)
      have he := hm e (List.mem_cons_self _ _)
      rw [limbs_value_cons, limbs_value_cons, BASE_eq] at hv
      rw [BASE_eq] at hd he
      have hde : d = e := by omega
      have hvv : limbs_value l = limbs_value m := by omega
      rw [hde, ih m (by simpa using hlen) (fun x hx => hl x (List.mem_cons_of_mem _ hx))
        (fun x hx => hm x (List.mem_cons_of_mem _ hx)) hvv]

/-- A canonical value is determined by the integer it denotes. -/
theorem canonical_ext (a b : UnsignedBigint) (ha : a.canonical) (hb : b.canonical)
    (hv : a.value = b.value) : a = b := by
  have hlen : a.digits.length = b.digits.length := by
    rcases lt_trichotomy a.digits.length b.digits.length with h | h | h
    · have := canonical_length_lt a b ha hb h; omega
    · exact h
    · have := canonical_length_lt b a hb ha h; omega
  cases a with
  | mk l =>
    cases b with
    | mk m =>
      have := limbs_eq_of_value_eq l m hlen ha.2.1 hb.2.1 hv
      rw [this]

/-! ### operator-= -/

theorem sub_loop_cons (d o : Int) (ds os : List Int) :
    sub_loop (d :: ds) (o :: os) =
      match sub_loop ds os with
      | .error e => .error e
      | .ok rest => .ok (int32 (d - o) :: rest) := rfl

theorem borrow_loop_nil (prev : Int) : borrow_loop prev [] = [prev] := rfl

theorem borrow_loop_cons (prev d : Int) (rest : List Int) :
    borrow_loop prev (d :: rest) =
      if prev < 0 then int32 (prev + BASE) :: borrow_loop (int32 (d - 1)) rest
      else prev :: borrow_loop d rest := rfl

theorem sub_loop_nil_right (ds : List Int) : sub_loop ds [] = .ok ds := by
  cases ds <;> rfl

theorem sub_loop_spec : ∀ (ds os : List Int), os.length ≤ ds.length →
    (∀ d ∈ ds, 0 ≤ d ∧ d < BASE) → (∀ d ∈ os, 0 ≤ d ∧ d < BASE) →
    ∃ r, sub_loop ds os = .ok r ∧ r.length = ds.length ∧
      (∀ d ∈ r, -BASE < d ∧ d < BASE) ∧
      limbs_value r = limbs_value ds - limbs_value os := by
  intro ds
  induction ds with
  | nil =>
    intro os hlen _ _
    have : os = [] := List.length_eq_zero.mp (by simpa using hlen)
    subst this
    exact ⟨[], rfl, rfl, by simp, by simp [limbs_value_nil]⟩
  | cons d ds ih =>
    intro os hlen hds hos
    cases os with
    | nil =>
      refine ⟨d :: ds, rfl, rfl, ?_, by simp [limbs_value_nil]⟩
      intro x hx
      have := hds x hx
      rw [BASE_eq] at this ⊢
      omega
    | cons o os =>
      have hd := hds d (List.mem_cons_self _ _)
      have ho := hos o (List.mem_cons_self _ _)
      obtain ⟨r, h1, h2, h3, h4⟩ := ih os (by simpa using hlen)
        (fun x hx => hds x (List.mem_cons_of_mem _ hx))
        (fun x hx => hos x (List.mem_cons_of_mem _ hx))
      rw [BASE_eq] at hd ho
      have hw : int32 (d - o) = d - o := int32_eq_self (by omega) (by omega)
      refine ⟨(d - o) :: r, ?_, by simp [h2], ?_, ?_⟩
      · rw [sub_loop_cons, h1, hw]
      · intro x hx
        rcases List.mem_cons.mp hx with rfl | hx
        · rw [BASE_eq]; omega
        · exact h3 x hx
      · rw [limbs_value_cons, limbs_value_cons, limbs_value_cons, h4]; ring

theorem sub_loop_length_lt : ∀ (ds os : List Int), ds.length < os.length →
    sub_loop ds os = .error .undefined_behaviour := by
  intro ds
  induction ds with
  | nil =>
    intro os h
    cases os with
    | nil => simp at h
    | cons o os => rfl
  | cons d ds ih =>
    intro os h
    cases os with
    | nil => simp at h
    | cons o os => rw [sub_loop_cons, ih os (by simpa using h)]

theorem borrow_loop_spec : ∀ (rest : List Int) (prev : Int), -BASE ≤ prev → prev < BASE →
    (∀ d ∈ rest, -BASE < d ∧ d < BASE) →
    ∃ init t, borrow_loop prev rest = init ++ [t] ∧ (∀ d ∈ init, 0 ≤ d ∧ d < BASE) ∧
      -BASE ≤ t ∧ t < BASE ∧ init.length = rest.length ∧
      limbs_value (borrow_loop prev rest) = limbs_value (prev :: rest) := by
  intro rest
  induction rest with
  | nil =>
    intro prev h0 h1 _
    exact ⟨[], prev, rfl, by simp, h0, h1, rfl, rfl⟩
  | cons d rest ih =>
    intro prev h0 h1 hrest
    have hd := hrest d (List.mem_cons_self _ _)
    have hrest' : ∀ x ∈ rest, -BASE < x ∧ x < BASE :=
      fun x hx => hrest x (List.mem_cons_of_mem _ hx)
    rw [BASE_eq] at h0 h1 hd
    rw [borrow_loop_cons]
    by_cases hc : prev < 0
    · have hw : int32 (prev + BASE) = prev + BASE := by
        rw [BASE_eq]; exact int32_eq_self (by omega) (by omega)
      have hw1 : int32 (d - 1) = d - 1 := int32_eq_self (by omega) (by omega)
      simp only [hc, ite_true, hw, hw1]
      obtain ⟨init, t, i1, i2, i3, i4, i5, i6⟩ :=
        ih (d - 1) (by rw [BASE_eq]; omega) (by rw [BASE_eq]; omega) hrest'
      refine ⟨(prev + BASE) :: init, t, by rw [i1]; rfl, ?_, i3, i4, by simp [i5], ?_⟩
      · intro x hx
        rcases List.mem_cons.mp hx with rfl | hx
        · rw [BASE_eq]; omega
        · exact i2 x hx
      · rw [limbs_value_cons, i6]
        simp only [limbs_value_cons]; ring
    · simp only [hc, ite_false]
      obtain ⟨init, t, i1, i2, i3, i4, i5, i6⟩ :=
        ih d (by rw [BASE_eq]; omega) (by rw [BASE_eq]; omega) hrest'
      refine ⟨prev :: init, t, by rw [i1]; rfl, ?_, i3, i4, by simp [i5], ?_⟩
      · intro x hx
        rcases List.mem_cons.mp hx with rfl | hx
        · rw [BASE_eq]; omega
        · exact i2 x hx
      · rw [limbs_value_cons, i6]
        simp only [limbs_value_cons]

/-- The two loops of `operator-=` on in-range operands, the subtrahend no longer than the
receiver: the vector before trimming has all limbs below the top in `[0, BASE)` and denotes
the difference. -/
theorem sub_passes_spec (a b : UnsignedBigint) (ha : a.digits ≠ [])
    (hlen : b.digits.length ≤ a.digits.length)
    (hra : ∀ d ∈ a.digits, 0 ≤ d ∧ d < BASE) (hrb : ∀ d ∈ b.digits, 0 ≤ d ∧ d < BASE) :
    ∃ init t, a.sub_assign b = (remove_leading_zeros (init ++ [t])).map UnsignedBigint.mk ∧
      (∀ d ∈ init, 0 ≤ d ∧ d < BASE) ∧ -BASE ≤ t ∧ t < BASE ∧
      init.length + 1 = a.digits.length ∧
      limbs_value (init ++ [t]) = a.value - b.value := by
  obtain ⟨r, h1, h2, h3, h4⟩ := sub_loop_spec a.digits b.digits hlen hra hrb
  have hrlen : 0 < r.length := by
    rw [h2]; exact List.length_pos.mpr ha
  obtain ⟨d, rest, rfl⟩ : ∃ d rest, r = d :: rest := by
    cases r with
    | nil => simp at hrlen
    | cons d rest => exact ⟨d, rest, rfl⟩
  have hd := h3 d (List.mem_cons_self _ _)
  obtain ⟨init, t, i1, i2, i3, i4, i5, i6⟩ := borrow_loop_spec rest d (le_of_lt hd.1) hd.2
    (fun x hx => h3 x (List.mem_cons_of_mem _ hx))
  refine ⟨init, t, ?_, i2, i3, i4, ?_, ?_⟩
  · unfold UnsignedBigint.sub_assign
    rw [h1]
    simp only [i1]
  · rw [i5, ← h2]; rfl
  · rw [← i1, i6, h4]; rfl

theorem sub_assign_spec (a b : UnsignedBigint) (ha : a.canonical) (hb : b.canonical)
    (hv : b.value ≤ a.value) :
    ∃ r, a.sub_assign b = .ok r ∧ r.canonical ∧ r.value = a.value - b.value := by
  have hlen : b.digits.length ≤ a.digits.length := by
    by_contra hlt
    have := canonical_length_lt a b ha hb (by omega)
    omega
  obtain ⟨init, t, h1, h2, h3, h4, h5, h6⟩ := sub_passes_spec a b ha.1 hlen ha.2.1 hb.2.1
  have ht : 0 ≤ t := by
    by_contra hneg
    rw [limbs_value_append, limbs_value_cons, limbs_value_nil] at h6
    have hb1 := (limbs_value_bounds init h2).2
    have hp := BASE_pow_pos init.length
    have : BASE ^ init.length * (t + BASE * 0) ≤ BASE ^ init.length * (-1) :=
      mul_le_mul_of_nonneg_left (by omega) hp.le
    linarith
  have hall : ∀ d ∈ init ++ [t], 0 ≤ d ∧ d < BASE := by
    intro d hd
    rcases List.mem_append.mp hd with hd | hd
    · exact h2 d hd
    · rw [List.mem_singleton.mp hd]; exact ⟨ht, h4⟩
  obtain ⟨r, r1, r2, r3⟩ := remove_leading_zeros_spec (init ++ [t]) (by simp) hall
  refine ⟨⟨r⟩, ?_, r2, ?_⟩
  · rw [h1, r1]; rfl
  · show limbs_value r = _
    rw [r3, h6]

/-- What `operator-=` does below zero when both operands have the same number of limbs. -/
theorem sub_assign_underflow (a b : UnsignedBigint) (ha : a.canonical) (hb : b.canonical)
    (hlen : b.digits.length = a.digits.length) (hv : a.value < b.value) :
    ∃ init t, a.sub_assign b = .ok ⟨init ++ [t]⟩ ∧ t < 0 ∧ -BASE ≤ t ∧
      (∀ d ∈ init, 0 ≤ d ∧ d < BASE) ∧ init.length + 1 = a.digits.length ∧
      limbs_value (init ++ [t]) = a.value - b.value := by
  obtain ⟨init, t, h1, h2, h3, h4, h5, h6⟩ :=
    sub_passes_spec a b ha.1 (le_of_eq hlen) ha.2.1 hb.2.1
  have ht : t < 0 := by
    by_contra hneg
    rw [limbs_value_append, limbs_value_cons, limbs_value_nil] at h6
    have hb1 := (limbs_value_bounds init h2).1
    have hp := BASE_pow_pos init.length
    have : 0 ≤ BASE ^ init.length * (t + BASE * 0) :=
      mul_nonneg hp.le (by omega)
    linarith
  refine ⟨init, t, ?_, ht, h3, h2, h5, h6⟩
  rw [h1, remove_leading_zeros_snoc_ne init t (by omega)]; rfl

/-! ### compare -/

theorem limbs_value_take_succ (l : List Int) (pos : Nat) (h : pos < l.length) :
    limbs_value (l.take (pos + 1)) = limbs_value (l.take pos) + BASE ^ pos * l[pos] := by
  rw [List.take_succ, List.getElem?_eq_getElem h, Option.toList_some, limbs_value_append,
    List.length_take, min_eq_left (le_of_lt h), limbs_value_cons, limbs_value_nil]
  ring

theorem compare_loop_spec (a b : List Int) (hlen : a.length = b.length)
    (ha : ∀ d ∈ a, 0 ≤ d ∧ d < BASE) (hb : ∀ d ∈ b, 0 ≤ d ∧ d < BASE) :
    ∀ pos, pos < a.length → ∃ c, compare_loop a b pos = .ok c ∧
      (c < 0 ↔ limbs_value (a.take (pos + 1)) < limbs_value (b.take (pos + 1))) ∧
      (0 < c ↔ limbs_value (b.take (pos + 1)) < limbs_value (a.take (pos + 1))) := by
  have key : ∀ pos (h : pos < a.length), ∃ x y, a[pos]? = some x ∧ b[pos]? = some y ∧
      0 ≤ x ∧ x < 1000000000 ∧ 0 ≤ y ∧ y < 1000000000 ∧
      limbs_value (a.take (pos + 1)) = limbs_value (a.take pos) + BASE ^ pos * x ∧
      limbs_value (b.take (pos + 1)) = limbs_value (b.take pos) + BASE ^ pos * y := by
    intro pos h
    have h' : pos < b.length := hlen ▸ h
    have hx := ha a[pos] (List.getElem_mem h)
    have hy := hb b[pos] (List.getElem_mem h')
    rw [BASE_eq] at hx hy
    exact ⟨a[pos], b[pos], List.getElem?_eq_getElem h, List.getElem?_eq_getElem h',
      hx.1, hx.2, hy.1, hy.2, limbs_value_take_succ a pos h, limbs_value_take_succ b pos h'⟩
  intro pos
  induction pos with
  | zero =>
    intro h
    obtain ⟨x, y, hx, hy, x0, x1, y0, y1, vx, vy⟩ := key 0 h
    have hw : int32 (x - y) = x - y := int32_eq_self (by omega) (by omega)
    refine ⟨x - y, ?_, ?_, ?_⟩
    · simp only [compare_loop, hx, hy, hw]
    · rw [vx, vy]; simp only [List.take_zero, limbs_value_nil, pow_zero]; omega
    · rw [vx, vy]; simp only [List.take_zero, limbs_value_nil, pow_zero]; omega
  | succ pos ih =>
    intro h
    obtain ⟨x, y, hx, hy, x0, x1, y0, y1, vx, vy⟩ := key (pos + 1) h
    obtain ⟨c, hc, c1, c2⟩ := ih (by omega)
    have hA := limbs_value_bounds (a.take (pos + 1)) (fun d hd => ha d (List.mem_of_mem_take hd))
    have hB := limbs_value_bounds (b.take (pos + 1)) (fun d hd => hb d (List.mem_of_mem_take hd))
    rw [List.length_take, min_eq_left (by omega)] at hA
    rw [List.length_take, min_eq_left (by omega)] at hB
    have hP := BASE_pow_pos (pos + 1)
    by_cases hxy : x = y
    · subst hxy
      refine ⟨c, ?_, ?_, ?_⟩
      · simp only [compare_loop, hx, hy, ite_true, hc]
      · rw [vx, vy, c1]; constructor <;> intro hh <;> linarith
      · rw [vx, vy, c2]; constructor <;> intro hh <;> linarith
    · have hw : int32 (x - y) = x - y := int32_eq_self (by omega) (by omega)
      refine ⟨x - y, ?_, ?_, ?_⟩
      · simp only [compare_loop, hx, hy, hxy, ite_false, hw]
      · rw [vx, vy]
        constructor
        · intro hlt
          have : BASE ^ (pos + 1) * (x + 1) ≤ BASE ^ (pos + 1) * y :=
            mul_le_mul_of_nonneg_left (by omega) hP.le
          linarith
        · intro hlt
          by_contra hge
          have : BASE ^ (pos + 1) * (y + 1) ≤ BASE ^ (pos + 1) * x :=
            mul_le_mul_of_nonneg_left (by omega) hP.le
          linarith
      · rw [vx, vy]
        constructor
        · intro hlt
          have : BASE ^ (pos + 1) * (y + 1) ≤ BASE ^ (pos + 1) * x :=
            mul_le_mul_of_nonneg_left (by omega) hP.le
          linarith
        · intro hlt
          by_contra hge
          have : BASE ^ (pos + 1) * (x + 1) ≤ BASE ^ (pos + 1) * y :=
            mul_le_mul_of_nonneg_left (by omega) hP.le
          linarith

/-- On canonical operands with fewer than `2^31` limbs each, the sign of `compare` is the
sign of the difference of the denoted integers. -/
theorem compare_spec (a b : UnsignedBigint) (ha : a.canonical) (hb : b.canonical)
    (hla : a.digits.length < 2147483648) (hlb : b.digits.length < 2147483648) :
    ∃ c, a.compare b = .ok c ∧ (c < 0 ↔ a.value < b.value) ∧ (0 < c ↔ b.value < a.value) := by
  unfold UnsignedBigint.compare
  by_cases hlen : a.digits.length = b.digits.length
  · have hpos : 0 < a.digits.length := List.length_pos.mpr ha.1
    obtain ⟨c, hc, c1, c2⟩ := compare_loop_spec a.digits b.digits hlen ha.2.1 hb.2.1
      (a.digits.length - 1) (by omega)
    rw [Nat.sub_add_cancel hpos, List.take_length] at c1 c2
    rw [hlen, List.take_length] at c1 c2
    refine ⟨c, ?_, c1, c2⟩
    simp only [hlen, ne_eq, not_true_eq_false, ite_false]
    rw [← hlen, if_neg (by omega), hc]
  · have h1 : int32 (a.digits.length : Int) = a.digits.length := int32_eq_self (by omega) (by omega)
    have h2 : int32 (b.digits.length : Int) = b.digits.length := int32_eq_self (by omega) (by omega)
    have h3 : int32 ((a.digits.length : Int) - b.digits.length)
        = (a.digits.length : Int) - b.digits.length := int32_eq_self (by omega) (by omega)
    refine ⟨(a.digits.length : Int) - b.digits.length, ?_, ?_, ?_⟩
    · simp only [ne_eq, hlen, not_false_eq_true, ite_true, h1, h2, h3]
    · constructor
      · intro h
        exact canonical_length_lt a b ha hb (by omega)
      · intro h
        by_contra hge
        have := canonical_length_lt b a hb ha (by omega)
        omega
    · constructor
      · intro h
        exact canonical_length_lt b a hb ha (by omega)
      · intro h
        by_contra hge
        have := canonical_length_lt a b ha hb (by omega)
        omega

/-! ### Decimal numerals: `Nat.toDigits 10` and `decimal_value` -/

theorem toDigitsCore_append (b : Nat) : ∀ (fuel n : Nat) (ds : List Char),
    Nat.toDigitsCore b fuel n ds = Nat.toDigitsCore b fuel n [] ++ ds := by
  intro fuel
  induction fuel with
  | zero => intro n ds; rfl
  | succ fuel ih =>
    intro n ds
    simp only [Nat.toDigitsCore]
    split
    · rfl
    · rw [ih (n / b) (Nat.digitChar (n % b) :: ds), ih (n / b) [Nat.digitChar (n % b)]]
      simp

theorem toDigitsCore_fuel (b : Nat) (hb : 2 ≤ b) : ∀ (fuel fuel' n : Nat), n < fuel → n < fuel' →
    Nat.toDigitsCore b fuel n [] = Nat.toDigitsCore b fuel' n [] := by
  intro fuel
  induction fuel with
  | zero => intro fuel' n h; omega
  | succ fuel ih =>
    intro fuel' n h h'
    cases fuel' with
    | zero => omega
    | succ fuel' =>
      simp only [Nat.toDigitsCore]
      split
      · rfl
      · rename_i hne
        have hn : 0 < n := by
          rcases Nat.eq_zero_or_pos n with h0 | h0
          · subst h0; simp at hne
          · exact h0
        have hlt : n / b < n := Nat.div_lt_self hn (by omega)
        rw [toDigitsCore_append b fuel, toDigitsCore_append b fuel',
          ih fuel' (n / b) (by omega) (by omega)]

theorem toDigits_lt (n : Nat) (h : n < 10) : Nat.toDigits 10 n = [Nat.digitChar n] := by
  simp only [Nat.toDigits, Nat.toDigitsCore]
  rw [Nat.mod_eq_of_lt h, Nat.div_eq_of_lt h]
  rfl

theorem toDigits_ge (n : Nat) (h : 10 ≤ n) :
    Nat.toDigits 10 n = Nat.toDigits 10 (n / 10) ++ [Nat.digitChar (n % 10)] := by
  have hne : n / 10 ≠ 0 := by omega
  have e : Nat.toDigits 10 n = Nat.toDigitsCore 10 n (n / 10) [Nat.digitChar (n % 10)] := by
    simp only [Nat.toDigits, Nat.toDigitsCore, hne, ite_false]
  rw [e, toDigitsCore_append 10 n, toDigitsCore_fuel 10 (by decide) n (n / 10 + 1) (n / 10)
    (by omega) (by omega)]
  rfl

theorem isdigit_digitChar (k : Nat) (h : k < 10) : isdigit (Nat.digitChar k) = true := by
  interval_cases k <;> rfl

theorem digit_value_digitChar (k : Nat) (h : k < 10) : digit_value (Nat.digitChar k) = k := by
  interval_cases k <;> rfl

theorem isdigit_iff (c : Char) : isdigit c = true ↔ 48 ≤ c.toNat ∧ c.toNat ≤ 57 := by
  simp [isdigit]

theorem digitChar_digit_value (c : Char) (h : isdigit c = true) :
    Nat.digitChar (digit_value c) = c := by
  rw [isdigit_iff] at h
  obtain ⟨k, hk⟩ : ∃ k, c.toNat = k := ⟨_, rfl⟩
  have hc : c = Char.ofNat k := by rw [← hk, Char.ofNat_toNat]
  subst hc
  rw [hk] at h
  obtain ⟨h1, h2⟩ := h
  interval_cases k <;> rfl

theorem digit_value_lt (c : Char) (h : isdigit c = true) : digit_value c < 10 := by
  rw [isdigit_iff] at h
  unfold digit_value; omega

theorem decimal_value_nil : decimal_value [] = 0 := rfl

theorem decimal_value_foldl (s : List Char) : ∀ acc : Nat,
    s.foldl (fun acc c => 10 * acc + digit_value c) acc
      = acc * 10 ^ s.length + decimal_value s := by
  induction s with
  | nil => intro acc; simp [decimal_value]
  | cons c s ih =>
    intro acc
    simp only [decimal_value, List.foldl_cons, List.length_cons]
    rw [ih (10 * acc + digit_value c), ih (10 * 0 + digit_value c)]
    ring

theorem decimal_value_append (x y : List Char) :
    decimal_value (x ++ y) = decimal_value x * 10 ^ y.length + decimal_value y := by
  unfold decimal_value
  rw [List.foldl_append, decimal_value_foldl y]
  rfl

theorem decimal_value_cons (c : Char) (s : List Char) :
    decimal_value (c :: s) = digit_value c * 10 ^ s.length + decimal_value s := by
  have := decimal_value_append [c] s
  simpa [decimal_value] using this

theorem decimal_value_singleton (c : Char) : decimal_value [c] = digit_value c := by
  simp [decimal_value]

theorem decimal_value_lt (s : List Char) (h : ∀ c ∈ s, isdigit c = true) :
    decimal_value s < 10 ^ s.length := by
  induction s with
  | nil => simp [decimal_value]
  | cons c s ih =>
    have hc := digit_value_lt c (h c (List.mem_cons_self _ _))
    have ih' := ih (fun x hx => h x (List.mem_cons_of_mem _ hx))
    rw [decimal_value_cons, List.length_cons, pow_succ]
    have hp : 0 < 10 ^ s.length := by positivity
    nlinarith

theorem toDigits_spec (n : Nat) :
    (∀ c ∈ Nat.toDigits 10 n, isdigit c = true) ∧ decimal_value (Nat.toDigits 10 n) = n ∧
      Nat.toDigits 10 n ≠ [] ∧ (n ≠ 0 → (Nat.toDigits 10 n).head? ≠ some '0') := by
  induction n using Nat.strong_induction_on with
  | _ n ih =>
    by_cases h : n < 10
    · rw [toDigits_lt n h]
      refine ⟨?_, ?_, by simp, ?_⟩
      · intro c hc
        rw [List.mem_singleton.mp hc]; exact isdigit_digitChar n h
      · rw [decimal_value_singleton, digit_value_digitChar n h]
      · intro hn
        interval_cases n <;> simp at hn ⊢ <;> decide
    · have h10 : 10 ≤ n := by omega
      obtain ⟨i1, i2, i3, i4⟩ := ih (n / 10) (by omega)
      rw [toDigits_ge n h10]
      refine ⟨?_, ?_, by simp, ?_⟩
      · intro c hc
        rcases List.mem_append.mp hc with hc | hc
        · exact i1 c hc
        · rw [List.mem_singleton.mp hc]; exact isdigit_digitChar _ (Nat.mod_lt _ (by decide))
      · rw [decimal_value_append, i2, decimal_value_singleton,
          digit_value_digitChar _ (Nat.mod_lt _ (by decide))]
        simp only [List.length_singleton, pow_one]
        omega
      · intro _
        have := i4 (by omega)
        cases hh : Nat.toDigits 10 (n / 10) with
        | nil => exact absurd hh i3
        | cons c t =>
          rw [hh] at this
          simpa using this

/-- A digit string without a superfluous leading zero is the numeral of its value. -/
theorem toDigits_decimal_value (s : List Char) (hne : s ≠ [])
    (hd : ∀ c ∈ s, isdigit c = true) (hz : s = ['0'] ∨ s.head? ≠ some '0') :
    Nat.toDigits 10 (decimal_value s) = s := by
  induction s using List.reverseRecOn with
  | nil => exact absurd rfl hne
  | append_singleton s c ih =>
    have hc : isdigit c = true := hd c (by simp)
    have hcv := digit_value_lt c hc
    by_cases hs : s = []
    · subst hs
      rw [List.nil_append, decimal_value_singleton, toDigits_lt _ hcv, digitChar_digit_value c hc]
    · have hhead : s.head? ≠ some '0' := by
        rcases hz with hz | hz
        · exfalso
          have := congrArg List.length hz
          simp only [List.length_append, List.length_singleton] at this
          have : s.length = 0 := by omega
          exact hs (List.length_eq_zero.mp this)
        · cases s with
          | nil => exact absurd rfl hs
          | cons x t => simpa using hz
      have ihs := ih hs (fun x hx => hd x (List.mem_append_left _ hx)) (Or.inr hhead)
      have hpos : decimal_value s ≠ 0 := by
        intro h0
        rw [h0] at ihs
        rw [← ihs] at hhead
        exact hhead rfl
      rw [decimal_value_append, decimal_value_singleton, List.length_singleton, pow_one,
        toDigits_ge _ (by omega)]
      have e1 : (decimal_value s * 10 + digit_value c) / 10 = decimal_value s := by omega
      have e2 : (decimal_value s * 10 + digit_value c) % 10 = digit_value c := by omega
      rw [e1, e2, ihs, digitChar_digit_value c hc]

theorem toDigits_length_le (n : Nat) (h : n < 1000000000) : (Nat.toDigits 10 n).length ≤ 9 :=
  Nat.toDigitsCore_length 10 (by decide) (n + 1) n 9 (by norm_num; exact h) (by decide)

/-! ### The string constructor -/

theorem digit_length_eq : digit_length = 9 := rfl

theorem isspace_of_isdigit (c : Char) (h : isdigit c = true) : isspace c = false := by
  rw [isdigit_iff] at h
  simp only [isspace, Bool.or_eq_false_iff, Bool.and_eq_false_iff, decide_eq_false_iff_not]
  omega

theorem stoi_digits (w : List Char) (hne : w ≠ []) (hd : ∀ c ∈ w, isdigit c = true)
    (hlen : w.length ≤ 9) : stoi w = .ok (decimal_value w : Int) := by
  have hlt := decimal_value_lt w hd
  have hpow : 10 ^ w.length ≤ 10 ^ 9 := Nat.pow_le_pow_right (by decide) hlen
  cases w with
  | nil => exact absurd rfl hne
  | cons c t =>
    have hc := hd c (List.mem_cons_self _ _)
    have hsp := isspace_of_isdigit c hc
    have hm : c ≠ '-' := by
      intro h; rw [h] at hc; exact absurd hc (by decide)
    have hp : c ≠ '+' := by
      intro h; rw [h] at hc; exact absurd hc (by decide)
    have htw : List.takeWhile isdigit (c :: t) = c :: t :=
      List.takeWhile_eq_self_iff.mpr hd
    unfold stoi
    simp only [List.dropWhile_cons_of_neg (by simp [hsp] : ¬ isspace c = true), List.head?_cons,
      Option.some.injEq, hm, hp, or_self, ite_false, htw, decide_False, Bool.false_eq_true]
    rw [if_neg (by simp)]
    rw [if_neg (by omega)]

theorem ofString_loop_spec (s : List Char) (hd : ∀ c ∈ s, isdigit c = true) :
    ∀ (fuel pos : Nat) (digits : List Int), pos ≤ s.length → pos ≤ fuel →
    ∃ ch, ofString_loop s fuel pos digits = .ok (pos % 9, digits ++ ch) ∧
      (∀ d ∈ ch, 0 ≤ d ∧ d < BASE) ∧ ch.length = pos / 9 ∧
      limbs_value ch + BASE ^ ch.length * (decimal_value (s.take (pos % 9)) : Int)
        = (decimal_value (s.take pos) : Int) := by
  intro fuel
  induction fuel with
  | zero =>
    intro pos digits _ hf
    have : pos = 0 := by omega
    subst this
    exact ⟨[], by simp [ofString_loop], by simp, rfl, by simp [limbs_value_nil]⟩
  | succ fuel ih =>
    intro pos digits hpos hf
    by_cases h9 : 9 ≤ pos
    · have hwlen : (substr s (pos - 9) 9).length = 9 := by
        simp only [substr, List.length_take, List.length_drop]; omega
      have hwd : ∀ c ∈ substr s (pos - 9) 9, isdigit c = true :=
        fun c hc => hd c (List.mem_of_mem_drop (List.mem_of_mem_take hc))
      have hwne : substr s (pos - 9) 9 ≠ [] := by
        intro h; rw [h] at hwlen; simp at hwlen
      have hst := stoi_digits _ hwne hwd (le_of_eq hwlen)
      have hwlt := decimal_value_lt _ hwd
      rw [hwlen] at hwlt
      obtain ⟨ch, c1, c2, c3, c4⟩ := ih (pos - 9)
        (digits ++ [(decimal_value (substr s (pos - 9) 9) : Int)]) (by omega) (by omega)
      have hmod : (pos - 9) % 9 = pos % 9 := by omega
      have htake : s.take pos = s.take (pos - 9) ++ substr s (pos - 9) 9 := by
        unfold substr
        rw [← List.take_add]
        congr 1; omega
      refine ⟨(decimal_value (substr s (pos - 9) 9) : Int) :: ch, ?_, ?_, ?_, ?_⟩
      · simp only [ofString_loop, digit_length_eq, h9, ite_true, hst, c1, hmod]
        simp
      · intro d hd'
        rcases List.mem_cons.mp hd' with rfl | hd'
        · rw [BASE_eq]; omega
        · exact c2 d hd'
      · rw [List.length_cons, c3]; omega
      · rw [hmod] at c4
        rw [limbs_value_cons, List.length_cons, pow_succ, htake, decimal_value_append, hwlen]
        push_cast
        rw [← c4, BASE_eq]
        ring
    · refine ⟨[], ?_, by simp, ?_, ?_⟩
      · simp only [ofString_loop, digit_length_eq, h9, ite_false, List.append_nil]
        rw [Nat.mod_eq_of_lt (by omega)]
      · simp only [List.length_nil]; omega
      · rw [Nat.mod_eq_of_lt (by omega)]
        simp [limbs_value_nil]

/-- The string constructor on a non-empty string of decimal digits returns the canonical
value that denotes the number written. -/
theorem ofString_spec (s : List Char) (hne : s ≠ []) (hd : ∀ c ∈ s, isdigit c = true) :
    ∃ r, UnsignedBigint.ofString s = .ok r ∧ r.canonical ∧
      r.value = (decimal_value s : Int) := by
  have hL : 0 < s.length := List.length_pos.mpr hne
  obtain ⟨ch, c1, c2, c3, c4⟩ := ofString_loop_spec s hd s.length s.length []
    (le_refl _) (le_refl _)
  rw [List.take_length] at c4
  rw [List.nil_append] at c1
  unfold UnsignedBigint.ofString
  rw [c1]
  by_cases hm : s.length % 9 = 0
  · rw [hm] at c4
    simp only [List.take_zero, decimal_value_nil, Nat.cast_zero, mul_zero, add_zero] at c4
    have hch : ch ≠ [] := by
      intro h; rw [h] at c3; simp only [List.length_nil] at c3; omega
    obtain ⟨r, r1, r2, r3⟩ := remove_leading_zeros_spec ch hch c2
    refine ⟨⟨r⟩, ?_, r2, ?_⟩
    · simp only [hm, ne_eq, not_true_eq_false, ite_false, r1]; rfl
    · show limbs_value r = _
      rw [r3, c4]
  · have htlen : (s.take (s.length % 9)).length = s.length % 9 := by
      rw [List.length_take]; omega
    have htd : ∀ c ∈ s.take (s.length % 9), isdigit c = true :=
      fun c hc => hd c (List.mem_of_mem_take hc)
    have htne : s.take (s.length % 9) ≠ [] := by
      intro h; rw [h] at htlen; simp only [List.length_nil] at htlen; omega
    have hst := stoi_digits _ htne htd (by omega)
    have hlt := decimal_value_lt _ htd
    have hpow : 10 ^ (s.take (s.length % 9)).length ≤ 10 ^ 9 :=
      Nat.pow_le_pow_right (by decide) (by omega)
    have hall : ∀ d ∈ ch ++ [(decimal_value (s.take (s.length % 9)) : Int)],
        0 ≤ d ∧ d < BASE := by
      intro d hd'
      rcases List.mem_append.mp hd' with hd' | hd'
      · exact c2 d hd'
      · rw [List.mem_singleton.mp hd', BASE_eq]; omega
    obtain ⟨r, r1, r2, r3⟩ := remove_leading_zeros_spec _ (by simp) hall
    refine ⟨⟨r⟩, ?_, r2, ?_⟩
    · simp only [ne_eq, hm, not_false_eq_true, ite_true, substr, List.drop_zero, hst, r1]; rfl
    · show limbs_value r = _
      rw [r3, limbs_value_append, limbs_value_cons, limbs_value_nil, ← c4]
      ring

/-! ### to_string -/

theorem std_to_string_natCast (n : Nat) : std_to_string (n : Int) = Nat.toDigits 10 n := rfl

theorem std_to_string_of_nonneg (d : Int) (h : 0 ≤ d) :
    std_to_string d = Nat.toDigits 10 d.toNat := by
  conv_lhs => rw [← Int.toNat_of_nonneg h]
  rfl

theorem std_to_string_length_le (d : Int) (h : 0 ≤ d ∧ d < BASE) :
    (std_to_string d).length ≤ 9 := by
  rw [std_to_string_of_nonneg d h.1]
  have := h.2
  rw [BASE_eq] at this
  exact toDigits_length_le _ (by omega)

theorem padded_chunks_cons (d : Int) (rest : List Int) :
    padded_chunks (d :: rest) = padded_chunks rest ++ padded_chunk d := rfl

theorem padded_chunks_append (l m : List Int) :
    padded_chunks (l ++ m) = padded_chunks m ++ padded_chunks l := by
  induction l with
  | nil => simp [padded_chunks]
  | cons d l ih => rw [List.cons_append, padded_chunks_cons, ih, padded_chunks_cons,
      List.append_assoc]

theorem to_string_loop_lower (digits : List Int) (hr : ∀ d ∈ digits, 0 ≤ d ∧ d < BASE) :
    ∀ (pos : Nat) (str lz : List Char), pos < digits.length →
      to_string_loop digits pos (str, lz) = .ok (str ++ padded_chunks (digits.take pos)) := by
  intro pos
  induction pos with
  | zero => intro str lz _; simp [to_string_loop, padded_chunks]
  | succ pos ih =>
    intro str lz h
    have hpos : pos < digits.length := by omega
    have hd := hr digits[pos] (List.getElem_mem hpos)
    have hlen := std_to_string_length_le _ hd
    have hne : pos + 1 ≠ digits.length := by omega
    simp only [to_string_loop, List.getElem?_eq_getElem hpos, hne, ne_eq, not_false_eq_true,
      ite_true, digit_length_eq, hlen]
    rw [ih _ _ hpos, List.take_succ, List.getElem?_eq_getElem hpos, Option.toList_some,
      padded_chunks_append]
    simp [padded_chunks, padded_chunk, digit_length_eq, List.append_assoc]

/-- Shape of the output of `to_string`: the numeral of the top limb, then the padded chunks
of the limbs below it. -/
theorem to_string_shape (init : List Int) (top : Int)
    (hr : ∀ d ∈ init ++ [top], 0 ≤ d ∧ d < BASE) :
    (UnsignedBigint.mk (init ++ [top])).to_string
      = .ok (std_to_string top ++ padded_chunks init) := by
  have h1 : (init ++ [top])[init.length]? = some top := by simp
  unfold UnsignedBigint.to_string
  simp only [List.length_append, List.length_singleton, to_string_loop, h1, ne_eq,
    not_true_eq_false, ite_false, List.nil_append]
  rw [to_string_loop_lower _ hr _ _ _ (by simp), List.take_left]

theorem decimal_value_replicate_zero (k : Nat) : decimal_value (List.replicate k '0') = 0 := by
  induction k with
  | zero => rfl
  | succ k ih =>
    rw [List.replicate_succ, decimal_value_cons, ih, show digit_value '0' = 0 from rfl]
    simp

theorem padded_chunk_spec (d : Int) (h : 0 ≤ d ∧ d < BASE) :
    (padded_chunk d).length = 9 ∧ (∀ c ∈ padded_chunk d, isdigit c = true) ∧
      (decimal_value (padded_chunk d) : Int) = d := by
  have hlen := std_to_string_length_le d h
  obtain ⟨t1, t2, _, _⟩ := toDigits_spec d.toNat
  unfold padded_chunk
  refine ⟨?_, ?_, ?_⟩
  · rw [List.length_append, List.length_replicate, digit_length_eq]; omega
  · intro c hc
    rcases List.mem_append.mp hc with hc | hc
    · rw [List.eq_of_mem_replicate hc]; rfl
    · rw [std_to_string_of_nonneg d h.1] at hc; exact t1 c hc
  · rw [decimal_value_append, decimal_value_replicate_zero, std_to_string_of_nonneg d h.1, t2]
    simp only [zero_mul, zero_add]
    exact Int.toNat_of_nonneg h.1

theorem padded_chunks_spec (l : List Int) (h : ∀ d ∈ l, 0 ≤ d ∧ d < BASE) :
    (padded_chunks l).length = 9 * l.length ∧ (∀ c ∈ padded_chunks l, isdigit c = true) ∧
      (decimal_value (padded_chunks l) : Int) = limbs_value l := by
  induction l with
  | nil => exact ⟨rfl, by simp [padded_chunks], rfl⟩
  | cons d l ih =>
    obtain ⟨i1, i2, i3⟩ := ih (fun x hx => h x (List.mem_cons_of_mem _ hx))
    obtain ⟨p1, p2, p3⟩ := padded_chunk_spec d (h d (List.mem_cons_self _ _))
    rw [padded_chunks_cons]
    refine ⟨?_, ?_, ?_⟩
    · rw [List.length_append, i1, p1, List.length_cons]; ring
    · intro c hc
      rcases List.mem_append.mp hc with hc | hc
      · exact i2 c hc
      · exact p2 c hc
    · rw [decimal_value_append, p1, limbs_value_cons]
      push_cast
      rw [i3, p3, BASE_eq]; ring

/-- On a canonical value `to_string` returns the decimal numeral of the denoted integer. -/
theorem to_string_spec (a : UnsignedBigint) (h : a.canonical) :
    a.to_string = .ok (Nat.toDigits 10 a.value.toNat) ∧
      ∃ init top, a.digits = init ++ [top] ∧
        Nat.toDigits 10 a.value.toNat = std_to_string top ++ padded_chunks init := by
  obtain ⟨hne, hr, ht⟩ := h
  cases a with
  | mk digits =>
  simp only at hne hr ht
  rcases List.eq_nil_or_concat digits with hnil | ⟨init, top, hc⟩
  · exact absurd hnil hne
  rw [List.concat_eq_append] at hc
  subst hc
  have htop := hr top (by simp)
  have hinit : ∀ d ∈ init, 0 ≤ d ∧ d < BASE := fun d hd => hr d (List.mem_append_left _ hd)
  obtain ⟨t1, t2, t3, t4⟩ := toDigits_spec top.toNat
  obtain ⟨p1, p2, p3⟩ := padded_chunks_spec init hinit
  have hs := std_to_string_of_nonneg top htop.1
  have hval : (decimal_value (std_to_string top ++ padded_chunks init) : Int)
      = limbs_value (init ++ [top]) := by
    rw [decimal_value_append, hs, t2, p1, limbs_value_append, limbs_value_cons, limbs_value_nil]
    push_cast
    rw [p3, Int.toNat_of_nonneg htop.1, pow_mul, BASE_eq]
    norm_num
    ring
  have hnum : Nat.toDigits 10 (decimal_value (std_to_string top ++ padded_chunks init))
      = std_to_string top ++ padded_chunks init := by
    apply toDigits_decimal_value
    · rw [hs]; simp [t3]
    · intro c hc
      rcases List.mem_append.mp hc with hc | hc
      · rw [hs] at hc; exact t1 c hc
      · exact p2 c hc
    · by_cases h0 : top = 0
      · left
        subst h0
        have hlen : init = [] := by
          rcases ht with ht | ht
          · simp only [List.length_append, List.length_singleton] at ht
            exact List.length_eq_zero.mp (by omega)
          · exact absurd (by simp) ht
        subst hlen
        rfl
      · right
        have hn : top.toNat ≠ 0 := by omega
        have := t4 hn
        rw [hs]
        cases hh : Nat.toDigits 10 top.toNat with
        | nil => exact absurd hh t3
        | cons c t =>
          rw [hh] at this
          simpa using this
  have hnat : (UnsignedBigint.mk (init ++ [top])).value.toNat
      = decimal_value (std_to_string top ++ padded_chunks init) := by
    show (limbs_value (init ++ [top])).toNat = _
    rw [← hval, Int.toNat_ofNat]
  refine ⟨?_, init, top, rfl, ?_⟩
  · rw [to_string_shape init top hr, hnat, hnum]
  · rw [hnat, hnum]

/-! ### operator unsigned int -/

theorem uint32_modEq (x : Int) : uint32 x ≡ x [ZMOD 4294967296] := Int.mod_modEq x 4294967296

theorem uint32_range (x : Int) : 0 ≤ uint32 x ∧ uint32 x < 4294967296 := by
  unfold uint32; omega

theorem toUInt_loop_spec : ∀ (l : List Int) (n p : Int), 0 ≤ n → n < 4294967296 →
    toUInt_loop l (n, p) = (n + p * limbs_value l) % 4294967296 := by
  intro l
  induction l with
  | nil =>
    intro n p h0 h1
    simp only [toUInt_loop, limbs_value_nil, mul_zero, add_zero]
    omega
  | cons d l ih =>
    intro n p h0 h1
    have hr := uint32_range (n + uint32 (p * uint32 d))
    simp only [toUInt_loop]
    rw [ih _ _ hr.1 hr.2, limbs_value_cons]
    have e1 : uint32 (n + uint32 (p * uint32 d)) ≡ n + p * d [ZMOD 4294967296] :=
      (uint32_modEq _).trans
        (Int.ModEq.add_left n ((uint32_modEq _).trans (Int.ModEq.mul_left p (uint32_modEq d))))
    have e2 : uint32 (p * uint32 BASE) ≡ p * BASE [ZMOD 4294967296] :=
      (uint32_modEq _).trans (Int.ModEq.mul_left p (uint32_modEq BASE))
    have e3 := Int.ModEq.add e1 (Int.ModEq.mul_right (limbs_value l) e2)
    have e4 : n + p * d + p * BASE * limbs_value l = n + p * (d + BASE * limbs_value l) := by
      ring
    rw [e4] at e3
    exact e3

theorem horner_wrap_spec (l : List Int) : horner_wrap l = limbs_value l % 4294967296 := by
  induction l with
  | nil => rfl
  | cons d l ih =>
    simp only [horner_wrap, limbs_value_cons]
    have e1 : uint32 (horner_wrap l * BASE) ≡ limbs_value l * BASE [ZMOD 4294967296] := by
      refine (uint32_modEq _).trans (Int.ModEq.mul_right BASE ?_)
      rw [ih]; exact Int.mod_modEq _ _
    have e2 := (uint32_modEq (uint32 (horner_wrap l * BASE) + uint32 d)).trans
      (Int.ModEq.add e1 (uint32_modEq d))
    have e3 : limbs_value l * BASE + d = d + BASE * limbs_value l := by ring
    rw [e3] at e2
    have hr := uint32_range (uint32 (horner_wrap l * BASE) + uint32 d)
    have : uint32 (uint32 (horner_wrap l * BASE) + uint32 d) % 4294967296
        = uint32 (uint32 (horner_wrap l * BASE) + uint32 d) := Int.emod_eq_of_lt hr.1 hr.2
    rw [← this]
    exact e2

theorem toUInt_spec (a : UnsignedBigint) : a.toUInt = a.value % 4294967296 := by
  unfold UnsignedBigint.toUInt UnsignedBigint.value
  rw [toUInt_loop_spec a.digits 0 1 (le_refl _) (by decide)]
  simp

/-! ### Leading zeros of a digit string -/

theorem strip_leading_zeros_cons_zero (t : List Char) :
    strip_leading_zeros ('0' :: t) = strip_leading_zeros t := by
  simp [strip_leading_zeros]

theorem strip_leading_zeros_cons_ne (c : Char) (t : List Char) (h : c ≠ '0') :
    strip_leading_zeros (c :: t) = c :: t := by
  simp [strip_leading_zeros, h]

theorem strip_leading_zeros_spec (s : List Char) (hd : ∀ c ∈ s, isdigit c = true) :
    strip_leading_zeros s ≠ [] ∧ (∀ c ∈ strip_leading_zeros s, isdigit c = true) ∧
      (strip_leading_zeros s = ['0'] ∨ (strip_leading_zeros s).head? ≠ some '0') ∧
      decimal_value (strip_leading_zeros s) = decimal_value s := by
  induction s with
  | nil => exact ⟨by simp [strip_leading_zeros], by simp [strip_leading_zeros]; rfl,
      Or.inl rfl, rfl⟩
  | cons c t ih =>
    by_cases hc : c = '0'
    · subst hc
      obtain ⟨i1, i2, i3, i4⟩ := ih (fun x hx => hd x (List.mem_cons_of_mem _ hx))
      rw [strip_leading_zeros_cons_zero]
      refine ⟨i1, i2, i3, ?_⟩
      rw [i4, decimal_value_cons, show digit_value '0' = 0 from rfl]
      simp
    · rw [strip_leading_zeros_cons_ne c t hc]
      exact ⟨by simp, hd, Or.inr (by simpa using hc), rfl⟩

theorem strip_leading_zeros_all_zero (s : List Char) (h : ∀ c ∈ s, c = '0') :
    strip_leading_zeros s = ['0'] := by
  have : s.dropWhile (fun c => decide (c = '0')) = [] := by
    rw [List.dropWhile_eq_nil_iff]
    intro c hc
    simp [h c hc]
  simp [strip_leading_zeros, this]

/-! ### The calls `a += a` and `a -= a` -/

theorem add_loop_self_eq : ∀ (xs zs : List Int),
    add_loop (xs ++ zs) xs = .ok (add_loop_self xs ++ zs) := by
  intro xs
  induction xs with
  | nil => intro zs; exact add_loop_nil_right zs
  | cons d xs ih =>
    intro zs
    rw [List.cons_append, add_loop_cons, ih zs]
    rfl

theorem add_loop_self_snoc_zero (xs : List Int) :
    add_loop_self (xs ++ [0]) = add_loop_self xs ++ [0] := by
  induction xs with
  | nil => rfl
  | cons d xs ih =>
    show int32 (d + d) :: add_loop_self (xs ++ [0]) = _
    rw [ih]; rfl

/-- The call `a += a` gives what `a += b` gives for a separate copy `b` of `a`. -/
theorem add_assign_self_eq (a : UnsignedBigint) : a.add_assign_self = a.add_assign a := by
  unfold UnsignedBigint.add_assign_self UnsignedBigint.add_assign
  rw [max_self, resize_grow _ _ (le_refl _), Nat.sub_self, List.replicate_zero, List.append_nil,
    add_loop_self_eq, add_loop_self_snoc_zero]
  cases add_loop_self a.digits ++ [0] <;> rfl

theorem sub_loop_self_eq (xs : List Int) : sub_loop xs xs = .ok (sub_loop_self xs) := by
  induction xs with
  | nil => rfl
  | cons d xs ih =>
    rw [sub_loop_cons, ih]
    rfl

/-- The call `a -= a` gives what `a -= b` gives for a separate copy `b` of `a`. -/
theorem sub_assign_self_eq (a : UnsignedBigint) : a.sub_assign_self = a.sub_assign a := by
  unfold UnsignedBigint.sub_assign_self UnsignedBigint.sub_assign
  rw [sub_loop_self_eq]
  cases sub_loop_self a.digits <;> rfl

/-! ## The claims -/

/-- C1: addition is exact. For canonical `a` and `b`, the in-place `a += b` and the binary
`a + b` return the same value, and that value denotes `value a + value b`. Scenario S1:
`parse("999999999") + parse("1")` has limbs `[0, 1]` and renders `"1000000000"`. Scenario S2:
`parse("12345678901234567890") + parse("98765432109876543210")` renders
`"111111111011111111100"`. The call `a += a`, in which the addend is the receiver itself,
gives the same result as adding a copy of `a`. -/
theorem add_exact (a b : UnsignedBigint) (ha : a.canonical) (hb : b.canonical) :
    (∃ r, a.add_assign b = .ok r ∧ a.add b = .ok r ∧ r.value = a.value + b.value) ∧
    a.add_assign_self = a.add_assign a ∧
    ((do
        let x ← UnsignedBigint.ofString "999999999".toList
        let y ← UnsignedBigint.ofString "1".toList
        x.add y) = Except.ok (UnsignedBigint.mk [0, 1])) ∧
    (UnsignedBigint.mk [0, 1]).to_string = Except.ok "1000000000".toList ∧
    ((do
        let x ← UnsignedBigint.ofString "12345678901234567890".toList
        let y ← UnsignedBigint.ofString "98765432109876543210".toList
        let r ← x.add y
        r.to_string) = Except.ok "111111111011111111100".toList) := by
  refine ⟨?_, add_assign_self_eq a, rfl, rfl, rfl⟩
  obtain ⟨r, h1, _, h3⟩ := add_assign_spec a b ha.1 ha.2.1 hb.2.1
  exact ⟨r, h1, h1, h3⟩

theorem add_exact_witness :
    (UnsignedBigint.mk [999999999]).canonical ∧ (UnsignedBigint.mk [1]).canonical ∧
    ∃ r, (UnsignedBigint.mk [999999999]).add_assign ⟨[1]⟩ = .ok r ∧
      (UnsignedBigint.mk [999999999]).add ⟨[1]⟩ = .ok r ∧
      r.value = (UnsignedBigint.mk [999999999]).value + (UnsignedBigint.mk [1]).value :=
  ⟨by decide, by decide, (add_exact ⟨[999999999]⟩ ⟨[1]⟩ (by decide) (by decide)).1⟩

/-- C2: subtraction is exact on its domain. For canonical `a` and `b` with
`value a >= value b`, the in-place `a -= b` and the binary `a - b` return the same value; it
is canonical and denotes `value a - value b`. Scenario S3:
`parse("1000000000000000000") - parse("1")` renders `"999999999999999999"`. Scenario S4:
`parse("42") - parse("42")` has limbs `[0]` and renders `"0"`. The call `a -= a`, in which
the subtrahend is the receiver itself, gives the same result as subtracting a copy of `a`. -/
theorem sub_exact (a b : UnsignedBigint) (ha : a.canonical) (hb : b.canonical)
    (hv : b.value ≤ a.value) :
    (∃ r, a.sub_assign b = .ok r ∧ a.sub b = .ok r ∧ r.value = a.value - b.value ∧
      r.canonical) ∧
    a.sub_assign_self = a.sub_assign a ∧
    ((do
        let x ← UnsignedBigint.ofString "1000000000000000000".toList
        let y ← UnsignedBigint.ofString "1".toList
        let r ← x.sub y
        r.to_string) = Except.ok "999999999999999999".toList) ∧
    ((do
        let x ← UnsignedBigint.ofString "42".toList
        let y ← UnsignedBigint.ofString "42".toList
        x.sub y) = Except.ok (UnsignedBigint.mk [0])) ∧
    (UnsignedBigint.mk [0]).to_string = Except.ok "0".toList := by
  refine ⟨?_, sub_assign_self_eq a, rfl, rfl, rfl⟩
  obtain ⟨r, h1, h2, h3⟩ := sub_assign_spec a b ha hb hv
  exact ⟨r, h1, h1, h3, h2⟩

theorem sub_exact_witness :
    (UnsignedBigint.mk [0, 0, 1]).canonical ∧ (UnsignedBigint.mk [1]).canonical ∧
    (UnsignedBigint.mk [1]).value ≤ (UnsignedBigint.mk [0, 0, 1]).value ∧
    ∃ r, (UnsignedBigint.mk [0, 0, 1]).sub_assign ⟨[1]⟩ = .ok r ∧
      (UnsignedBigint.mk [0, 0, 1]).sub ⟨[1]⟩ = .ok r ∧
      r.value = (UnsignedBigint.mk [0, 0, 1]).value - (UnsignedBigint.mk [1]).value ∧
      r.canonical :=
  ⟨by decide, by decide, by decide,
    (sub_exact ⟨[0, 0, 1]⟩ ⟨[1]⟩ (by decide) (by decide) (by decide)).1⟩

/-- C3: rendering after parsing strips leading zeros. For every non-empty string `s` of
ASCII digits, `to_string(UnsignedBigint(s))` is `s` without its leading zeros, and it is
`"0"` when `s` consists only of zeros. -/
theorem to_string_ofString (s : List Char) (hne : s ≠ []) (hd : ∀ c ∈ s, isdigit c = true) :
    (UnsignedBigint.ofString s >>= UnsignedBigint.to_string)
      = Except.ok (strip_leading_zeros s) ∧
    ((∀ c ∈ s, c = '0') →
      (UnsignedBigint.ofString s >>= UnsignedBigint.to_string) = Except.ok ['0']) := by
  obtain ⟨r, r1, r2, r3⟩ := ofString_spec s hne hd
  obtain ⟨s1, s2, s3, s4⟩ := strip_leading_zeros_spec s hd
  have hnat : r.value.toNat = decimal_value (strip_leading_zeros s) := by
    rw [r3, s4, Int.toNat_ofNat]
  have key : (UnsignedBigint.ofString s >>= UnsignedBigint.to_string)
      = Except.ok (strip_leading_zeros s) := by
    rw [r1]
    show r.to_string = _
    rw [(to_string_spec r r2).1, hnat, toDigits_decimal_value _ s1 s2 s3]
  refine ⟨key, fun hz => ?_⟩
  rw [key, strip_leading_zeros_all_zero s hz]

theorem to_string_ofString_witness :
    "00123".toList ≠ [] ∧ (∀ c ∈ "00123".toList, isdigit c = true) ∧
    (UnsignedBigint.ofString "00123".toList >>= UnsignedBigint.to_string)
      = Except.ok (strip_leading_zeros "00123".toList) ∧
    strip_leading_zeros "00123".toList = "123".toList :=
  ⟨by decide, by decide, (to_string_ofString "00123".toList (by decide) (by decide)).1,
    by decide⟩

/-- C4: parsing after rendering is the identity. For every canonical `a`,
`UnsignedBigint(a.to_string())` has exactly the limb sequence of `a`. -/
theorem ofString_to_string (a : UnsignedBigint) (ha : a.canonical) :
    (a.to_string >>= UnsignedBigint.ofString) = Except.ok a := by
  obtain ⟨t1, t2, t3, _⟩ := toDigits_spec a.value.toNat
  obtain ⟨r, r1, r2, r3⟩ := ofString_spec _ t3 t1
  rw [(to_string_spec a ha).1]
  show UnsignedBigint.ofString _ = _
  rw [r1]
  have hv : r.value = a.value := by
    rw [r3, t2]
    exact Int.toNat_of_nonneg (canonical_value_bounds a ha).1
  rw [canonical_ext r a r2 ha hv]

theorem ofString_to_string_witness :
    (UnsignedBigint.mk [234567890, 345678901, 12]).canonical ∧
    ((UnsignedBigint.mk [234567890, 345678901, 12]).to_string >>= UnsignedBigint.ofString)
      = Except.ok (UnsignedBigint.mk [234567890, 345678901, 12]) :=
  ⟨by decide, ofString_to_string ⟨[234567890, 345678901, 12]⟩ (by decide)⟩

/-! ### Helpers for the relational operators -/

theorem relational_spec (a b : UnsignedBigint) (ha : a.canonical) (hb : b.canonical)
    (hla : a.digits.length < 2147483648) (hlb : b.digits.length < 2147483648) :
    a.lt b = .ok (decide (a.value < b.value)) ∧ a.eq b = .ok (decide (a.value = b.value)) ∧
    a.gt b = .ok (decide (b.value < a.value)) ∧ a.le b = .ok (decide (a.value ≤ b.value)) ∧
    a.ge b = .ok (decide (b.value ≤ a.value)) ∧ a.ne b = .ok (decide (a.value ≠ b.value)) := by
  obtain ⟨c, hc, c1, c2⟩ := compare_spec a b ha hb hla hlb
  unfold UnsignedBigint.lt UnsignedBigint.eq UnsignedBigint.gt UnsignedBigint.le
    UnsignedBigint.ge UnsignedBigint.ne
  rw [hc]
  simp only [Except.map]
  refine ⟨?_, ?_, ?_, ?_, ?_, ?_⟩ <;> congr 1 <;> rw [decide_eq_decide] <;>
    constructor <;> intro h <;> omega

/-- A one followed by `k` zero limbs below it: canonical, and denoting `BASE ^ k`. -/
theorem power_limbs_spec (k : Nat) :
    (UnsignedBigint.mk (List.replicate k 0 ++ [1])).canonical ∧
      (UnsignedBigint.mk (List.replicate k 0 ++ [1])).value = BASE ^ k ∧
      (UnsignedBigint.mk (List.replicate k 0 ++ [1])).digits.length = k + 1 := by
  refine ⟨⟨by simp, ?_, Or.inr (by simp)⟩, ?_, by simp⟩
  · intro d hd
    rcases List.mem_append.mp hd with hd | hd
    · rw [List.eq_of_mem_replicate hd]; decide
    · rw [List.mem_singleton.mp hd]; decide
  · show limbs_value _ = _
    rw [limbs_value_append, limbs_value_replicate_zero, List.length_replicate, limbs_value_cons,
      limbs_value_nil]
    ring

theorem compare_length_ne (a b : UnsignedBigint) (h : a.digits.length ≠ b.digits.length) :
    a.compare b = .ok (int32 (int32 a.digits.length - int32 b.digits.length)) := by
  unfold UnsignedBigint.compare
  rw [if_pos h]

theorem long_lt_one (k : Nat) (hk : k = 2147483649) :
    (UnsignedBigint.mk (List.replicate k 0 ++ [1])).lt ⟨[1]⟩ = .ok true := by
  obtain ⟨_, _, h3⟩ := power_limbs_spec k
  unfold UnsignedBigint.lt
  rw [compare_length_ne _ _ (by rw [h3]; simp only [List.length_singleton]; omega), h3]
  subst hk
  rfl

theorem long_value_gt (k : Nat) (hk : 1 ≤ k) :
    (UnsignedBigint.mk [1]).value < (UnsignedBigint.mk (List.replicate k 0 ++ [1])).value := by
  rw [(power_limbs_spec k).2.1]
  have hp : BASE ^ 1 ≤ BASE ^ k := pow_le_pow_right₀ (by decide) hk
  have hb : (UnsignedBigint.mk [1]).value = 1 := rfl
  rw [hb]
  rw [pow_one] at hp
  have h1 : (1 : Int) < BASE := by decide
  linarith

/-- C5 fails as stated: `compare` narrows the limb counts to `int` before subtracting them.
For the canonical value `a` with `2^31 + 2` limbs (a one above `2^31 + 1` zero limbs) and
`b = 1`, `a < b` is reported although `a` denotes the larger integer. -/
theorem compare_narrowing_counterexample :
    (UnsignedBigint.mk (List.replicate 2147483649 0 ++ [1])).canonical ∧
    (UnsignedBigint.mk [1]).canonical ∧
    (UnsignedBigint.mk (List.replicate 2147483649 0 ++ [1])).lt ⟨[1]⟩ = .ok true ∧
    (UnsignedBigint.mk [1]).value
      < (UnsignedBigint.mk (List.replicate 2147483649 0 ++ [1])).value :=
  ⟨(power_limbs_spec 2147483649).1, by decide, long_lt_one 2147483649 rfl,
    long_value_gt 2147483649 (by decide)⟩

/-- C5 (amended): on canonical values with fewer than `2^31` limbs each the relational
operators agree with the denoted integers: `a < b` iff `value a < value b`, `a == b` iff
`value a = value b`, `a > b` iff `value a > value b`, and `<=`, `>=`, `!=` likewise; exactly
one of `a < b`, `a == b`, `a > b` holds, and `<` is transitive. Scenario S5:
`parse("10000000000") > parse("9999999999")` and `parse("00123") == parse("123")`. -/
theorem relational_total_order (a b c : UnsignedBigint)
    (ha : a.canonical) (hb : b.canonical) (hc : c.canonical)
    (hla : a.digits.length < 2147483648) (hlb : b.digits.length < 2147483648)
    (hlc : c.digits.length < 2147483648) :
    (a.lt b = .ok (decide (a.value < b.value)) ∧ a.eq b = .ok (decide (a.value = b.value)) ∧
      a.gt b = .ok (decide (b.value < a.value)) ∧ a.le b = .ok (decide (a.value ≤ b.value)) ∧
      a.ge b = .ok (decide (b.value ≤ a.value)) ∧ a.ne b = .ok (decide (a.value ≠ b.value))) ∧
    ((a.lt b = .ok true ∧ a.eq b = .ok false ∧ a.gt b = .ok false) ∨
      (a.lt b = .ok false ∧ a.eq b = .ok true ∧ a.gt b = .ok false) ∨
      (a.lt b = .ok false ∧ a.eq b = .ok false ∧ a.gt b = .ok true)) ∧
    (a.lt b = .ok true → b.lt c = .ok true → a.lt c = .ok true) ∧
    ((do
        let x ← UnsignedBigint.ofString "10000000000".toList
        let y ← UnsignedBigint.ofString "9999999999".toList
        x.gt y) = Except.ok true) ∧
    ((do
        let x ← UnsignedBigint.ofString "00123".toList
        let y ← UnsignedBigint.ofString "123".toList
        x.eq y) = Except.ok true) := by
  have hab := relational_spec a b ha hb hla hlb
  have hbc := relational_spec b c hb hc hlb hlc
  have hac := relational_spec a c ha hc hla hlc
  refine ⟨hab, ?_, ?_, rfl, rfl⟩
  · rw [hab.1, hab.2.1, hab.2.2.1]
    rcases lt_trichotomy a.value b.value with h | h | h
    · left
      exact ⟨by simp [h], by simp [ne_of_lt h], by simp [le_of_lt h]⟩
    · right; left
      exact ⟨by simp [h], by simp [h], by simp [h]⟩
    · right; right
      exact ⟨by simp [le_of_lt h], by simp [ne_of_gt h], by simp [h]⟩
  · rw [hab.1, hbc.1, hac.1]
    intro h1 h2
    have h1' : a.value < b.value := by simpa using h1
    have h2' : b.value < c.value := by simpa using h2
    simp [lt_trans h1' h2']

theorem relational_total_order_witness :
    (UnsignedBigint.mk [1]).canonical ∧ (UnsignedBigint.mk [0, 1]).canonical ∧
    (UnsignedBigint.mk [0, 2]).canonical ∧
    (UnsignedBigint.mk [1]).lt ⟨[0, 1]⟩ = .ok true ∧
    (UnsignedBigint.mk [0, 1]).lt ⟨[0, 2]⟩ = .ok true ∧
    (UnsignedBigint.mk [1]).lt ⟨[0, 2]⟩ = .ok true :=
  ⟨by decide, by decide, by decide, rfl, rfl,
    (relational_total_order ⟨[1]⟩ ⟨[0, 1]⟩ ⟨[0, 2]⟩ (by decide) (by decide) (by decide)
      (by decide) (by decide) (by decide)).2.2.1 rfl rfl⟩

/-- C6: rendering produces the canonical decimal numeral. For every canonical `a`,
`to_string a` is a non-empty string of ASCII digits, it is the base-10 numeral of `value a`,
it has no leading zero unless it is the string `"0"`, and it consists of the top limb printed
without padding followed by every lower limb padded with zeros to exactly 9 characters. -/
theorem to_string_canonical_numeral (a : UnsignedBigint) (ha : a.canonical) :
    ∃ s, a.to_string = .ok s ∧ s ≠ [] ∧ (∀ c ∈ s, isdigit c = true) ∧
      s = Nat.toDigits 10 a.value.toNat ∧ (decimal_value s : Int) = a.value ∧
      (s = ['0'] ∨ s.head? ≠ some '0') ∧
      ∃ init top, a.digits = init ++ [top] ∧
        s = std_to_string top ++ padded_chunks init ∧
        std_to_string top = Nat.toDigits 10 top.toNat ∧
        (∀ d ∈ init, (padded_chunk d).length = 9 ∧
          (decimal_value (padded_chunk d) : Int) = d) := by
  obtain ⟨h1, init, top, h2, h3⟩ := to_string_spec a ha
  obtain ⟨t1, t2, t3, t4⟩ := toDigits_spec a.value.toNat
  have hv := (canonical_value_bounds a ha).1
  refine ⟨_, h1, t3, t1, rfl, ?_, ?_, init, top, h2, h3, ?_, ?_⟩
  · rw [t2]; exact Int.toNat_of_nonneg hv
  · by_cases h0 : a.value.toNat = 0
    · left; rw [h0]; rfl
    · right; exact t4 h0
  · exact std_to_string_of_nonneg top (ha.2.1 top (by rw [h2]; simp)).1
  · intro d hd
    have hr := ha.2.1 d (by rw [h2]; exact List.mem_append_left _ hd)
    exact ⟨(padded_chunk_spec d hr).1, (padded_chunk_spec d hr).2.2⟩

theorem to_string_canonical_numeral_witness :
    (UnsignedBigint.mk [5, 0, 7]).canonical ∧
    (UnsignedBigint.mk [5, 0, 7]).to_string = .ok "7000000000000000005".toList ∧
    ∃ s, (UnsignedBigint.mk [5, 0, 7]).to_string = .ok s ∧ s ≠ [] ∧
      (∀ c ∈ s, isdigit c = true) ∧
      s = Nat.toDigits 10 (UnsignedBigint.mk [5, 0, 7]).value.toNat ∧
      (decimal_value s : Int) = (UnsignedBigint.mk [5, 0, 7]).value ∧
      (s = ['0'] ∨ s.head? ≠ some '0') ∧
      ∃ init top, (UnsignedBigint.mk [5, 0, 7]).digits = init ++ [top] ∧
        s = std_to_string top ++ padded_chunks init ∧
        std_to_string top = Nat.toDigits 10 top.toNat ∧
        (∀ d ∈ init, (padded_chunk d).length = 9 ∧
          (decimal_value (padded_chunk d) : Int) = d) :=
  ⟨by decide, rfl, to_string_canonical_numeral ⟨[5, 0, 7]⟩ (by decide)⟩

/-- C7: narrowing wraps modulo `2^32`. For every canonical `a`, `operator unsigned int`
returns `value a mod 2^32`; it returns `value a` itself when `value a < 2^32`; and it equals
the Horner evaluation of the limbs in base `10^9` in a wrapping 32-bit accumulator.
Scenario S6: the narrowing of `parse("4294967296")` is `0`. -/
theorem toUInt_wraps (a : UnsignedBigint) (ha : a.canonical) :
    a.toUInt = a.value % 4294967296 ∧ (a.value < 4294967296 → a.toUInt = a.value) ∧
    a.toUInt = horner_wrap a.digits ∧
    (UnsignedBigint.ofString "4294967296".toList).map UnsignedBigint.toUInt
      = Except.ok 0 := by
  have hv := (canonical_value_bounds a ha).1
  refine ⟨toUInt_spec a, fun h => ?_, ?_, rfl⟩
  · rw [toUInt_spec a]; exact Int.emod_eq_of_lt hv h
  · rw [toUInt_spec a, horner_wrap_spec]; rfl

theorem toUInt_wraps_witness :
    (UnsignedBigint.mk [294967296, 4]).canonical ∧
    (UnsignedBigint.mk [294967296, 4]).value = 4294967296 ∧
    (UnsignedBigint.mk [294967296, 4]).toUInt
      = (UnsignedBigint.mk [294967296, 4]).value % 4294967296 ∧
    (UnsignedBigint.mk [294967296, 4]).toUInt = 0 :=
  ⟨by decide, rfl, (toUInt_wraps ⟨[294967296, 4]⟩ (by decide)).1, rfl⟩

/-- C8: construction from a native unsigned 32-bit integer is exact. For every `n` with
`0 <= n < 2^32`, `UnsignedBigint(n)` is canonical, denotes `n`, and converts back to `n`
with `operator unsigned int`. -/
theorem ofUInt32_exact (n : Nat) (h : n < 4294967296) :
    ∃ r, UnsignedBigint.ofUInt32 n = .ok r ∧ r.canonical ∧ r.value = (n : Int) ∧
      r.toUInt = (n : Int) := by
  obtain ⟨t1, t2, t3, _⟩ := toDigits_spec n
  obtain ⟨r, r1, r2, r3⟩ := ofString_spec _ t3 t1
  rw [t2] at r3
  refine ⟨r, r1, r2, r3, ?_⟩
  rw [toUInt_spec r, r3]
  omega

theorem ofUInt32_exact_witness :
    (4294967295 : Nat) < 4294967296 ∧
    UnsignedBigint.ofUInt32 4294967295 = .ok ⟨[294967295, 4]⟩ ∧
    ∃ r, UnsignedBigint.ofUInt32 4294967295 = .ok r ∧ r.canonical ∧
      r.value = ((4294967295 : Nat) : Int) ∧ r.toUInt = ((4294967295 : Nat) : Int) :=
  ⟨by decide, rfl, ofUInt32_exact 4294967295 (by decide)⟩

/-- C9 fails as stated: no underflow is reported. `0 -= 1` returns normally and leaves the
limb `-1`, and so do the prefix and the postfix decrement of the default-constructed zero. -/
theorem sub_assign_underflow_counterexample :
    (UnsignedBigint.mk [0]).canonical ∧ (UnsignedBigint.mk [1]).canonical ∧
    (UnsignedBigint.mk [0]).value < (UnsignedBigint.mk [1]).value ∧
    (UnsignedBigint.mk [0]).sub_assign ⟨[1]⟩ = .ok ⟨[-1]⟩ ∧
    UnsignedBigint.default.pre_dec = .ok ⟨[-1]⟩ ∧
    UnsignedBigint.default.post_dec = .ok (⟨[0]⟩, ⟨[-1]⟩) :=
  ⟨by decide, by decide, by decide, rfl, rfl, rfl⟩

/-- C9 (amended): below zero `operator-=` reports nothing. For canonical `a` and `b` with
`value a < value b` and equally many limbs, `a -= b` returns normally and replaces the limbs
of `a` by a sequence of the same length whose limbs below the top lie in `[0, BASE)`, whose
top limb is negative, and which denotes the negative integer `value a - value b`. The prefix
and the postfix decrement of zero return normally and leave the single limb `-1`. -/
theorem sub_assign_below_zero (a b : UnsignedBigint) (ha : a.canonical) (hb : b.canonical)
    (hlen : b.digits.length = a.digits.length) (hv : a.value < b.value) :
    (∃ r, a.sub_assign b = .ok r ∧ r ≠ a ∧ r.digits.length = a.digits.length ∧
      r.value = a.value - b.value ∧ r.value < 0 ∧
      ∃ init top, r.digits = init ++ [top] ∧ top < 0 ∧ -BASE ≤ top ∧
        ∀ d ∈ init, 0 ≤ d ∧ d < BASE) ∧
    UnsignedBigint.default.pre_dec = .ok ⟨[-1]⟩ ∧
    UnsignedBigint.default.post_dec = .ok (UnsignedBigint.default, ⟨[-1]⟩) := by
  refine ⟨?_, rfl, rfl⟩
  obtain ⟨init, t, h1, h2, h3, h4, h5, h6⟩ := sub_assign_underflow a b ha hb hlen hv
  have hval : (UnsignedBigint.mk (init ++ [t])).value = a.value - b.value := h6
  refine ⟨⟨init ++ [t]⟩, h1, ?_, ?_, hval, by rw [hval]; omega, init, t, rfl, h2, h3, h4⟩
  · intro heq
    have h0 := (canonical_value_bounds a ha).1
    rw [← heq, hval] at h0
    omega
  · show (init ++ [t]).length = _
    rw [List.length_append, List.length_singleton, h5]

theorem sub_assign_below_zero_witness :
    (UnsignedBigint.mk [5, 1]).canonical ∧ (UnsignedBigint.mk [7, 1]).canonical ∧
    (UnsignedBigint.mk [5, 1]).value < (UnsignedBigint.mk [7, 1]).value ∧
    (UnsignedBigint.mk [5, 1]).sub_assign ⟨[7, 1]⟩ = .ok ⟨[999999998, -1]⟩ ∧
    ∃ r, (UnsignedBigint.mk [5, 1]).sub_assign ⟨[7, 1]⟩ = .ok r ∧ r ≠ ⟨[5, 1]⟩ ∧
      r.digits.length = (UnsignedBigint.mk [5, 1]).digits.length ∧
      r.value = (UnsignedBigint.mk [5, 1]).value - (UnsignedBigint.mk [7, 1]).value ∧
      r.value < 0 ∧
      ∃ init top, r.digits = init ++ [top] ∧ top < 0 ∧ -BASE ≤ top ∧
        ∀ d ∈ init, 0 ≤ d ∧ d < BASE :=
  ⟨by decide, by decide, by decide, rfl,
    (sub_assign_below_zero ⟨[5, 1]⟩ ⟨[7, 1]⟩ (by decide) (by decide) rfl (by decide)).1⟩

/-- C10 fails on the code: for the empty string the constructor pushes no limb, and
`remove_leading_zeros` then reads `digits[size() - 1]` of the empty vector, an access outside
the vector; no value `[0]` is produced, while the default constructor does produce `[0]`. -/
theorem ofString_empty_out_of_range :
    UnsignedBigint.ofString "".toList = .error Fault.undefined_behaviour ∧
    ofString_loop [] 0 0 [] = .ok (0, []) ∧
    remove_leading_zeros [] = .error Fault.undefined_behaviour ∧
    UnsignedBigint.default = ⟨[0]⟩ :=
  ⟨rfl, rfl, rfl, rfl⟩

/-! ### Algebra of `operator+` and `operator-` on canonical values -/

theorem add_spec (a b : UnsignedBigint) (ha : a.canonical) (hb : b.canonical) :
    ∃ r, a.add b = .ok r ∧ r.canonical ∧ r.value = a.value + b.value :=
  add_assign_spec a b ha.1 ha.2.1 hb.2.1

theorem sub_spec (a b : UnsignedBigint) (ha : a.canonical) (hb : b.canonical)
    (hv : b.value ≤ a.value) :
    ∃ r, a.sub b = .ok r ∧ r.canonical ∧ r.value = a.value - b.value :=
  sub_assign_spec a b ha hb hv

theorem bind_ok {α β : Type} (x : α) (f : α → Except Fault β) :
    ((Except.ok x : Except Fault α) >>= f) = f x := rfl

theorem remove_leading_zeros_canonical (a : UnsignedBigint) (ha : a.canonical) :
    remove_leading_zeros a.digits = .ok a.digits := by
  obtain ⟨hne, _, ht⟩ := ha
  rcases List.eq_nil_or_concat a.digits with hnil | ⟨init, t, hc⟩
  · exact absurd hnil hne
  · rw [List.concat_eq_append] at hc
    rw [hc] at ht ⊢
    by_cases h0 : t = 0
    · subst h0
      rcases ht with ht | ht
      · simp only [List.length_append, List.length_singleton] at ht
        have : init = [] := List.length_eq_zero.mp (by omega)
        subst this
        rfl
      · exact absurd (by simp) ht
    · exact remove_leading_zeros_snoc_ne init t h0

theorem compare_same_length (a b : UnsignedBigint) (ha : a.canonical) (hb : b.canonical)
    (hlen : a.digits.length = b.digits.length) :
    ∃ c, a.compare b = .ok c ∧ (c < 0 ↔ a.value < b.value) ∧ (0 < c ↔ b.value < a.value) := by
  have hpos : 0 < a.digits.length := List.length_pos.mpr ha.1
  obtain ⟨c, hc, c1, c2⟩ := compare_loop_spec a.digits b.digits hlen ha.2.1 hb.2.1
    (a.digits.length - 1) (by omega)
  rw [Nat.sub_add_cancel hpos, List.take_length] at c1 c2
  rw [hlen, List.take_length] at c1 c2
  refine ⟨c, ?_, c1, c2⟩
  unfold UnsignedBigint.compare
  rw [if_neg (by simp [hlen]), if_neg (by omega), hc]

theorem eq_self_of_canonical (r : UnsignedBigint) (hr : r.canonical) : r.eq r = .ok true := by
  obtain ⟨c, hc, c1, c2⟩ := compare_same_length r r hr hr rfl
  unfold UnsignedBigint.eq
  rw [hc]
  have : c = 0 := by
    have h1 : ¬ c < 0 := fun h => absurd (c1.mp h) (lt_irrefl _)
    have h2 : ¬ 0 < c := fun h => absurd (c2.mp h) (lt_irrefl _)
    omega
  subst this
  rfl

theorem ofUInt32_one : UnsignedBigint.ofUInt32 1 = .ok ⟨[1]⟩ := rfl

theorem one_canonical : (UnsignedBigint.mk [1]).canonical := by decide

theorem pre_inc_eq (a : UnsignedBigint) : a.pre_inc = a.add_assign ⟨[1]⟩ := rfl

theorem pre_dec_eq (a : UnsignedBigint) : a.pre_dec = a.sub_assign ⟨[1]⟩ := rfl

/-! ### The untrimmed vector -/

theorem add_assign_eq_untrimmed (a b : UnsignedBigint) :
    a.add_assign b =
      match a.add_untrimmed b with
      | .error e => .error e
      | .ok l => (remove_leading_zeros l).map UnsignedBigint.mk := by
  unfold UnsignedBigint.add_assign UnsignedBigint.add_untrimmed
  cases add_loop (resize a.digits (max a.digits.length b.digits.length + 1) 0) b.digits with
  | error e => rfl
  | ok l => cases l <;> rfl

theorem sub_assign_eq_untrimmed (a b : UnsignedBigint) :
    a.sub_assign b =
      match a.sub_untrimmed b with
      | .error e => .error e
      | .ok l => (remove_leading_zeros l).map UnsignedBigint.mk := by
  unfold UnsignedBigint.sub_assign UnsignedBigint.sub_untrimmed
  cases sub_loop a.digits b.digits with
  | error e => rfl
  | ok l => cases l <;> rfl

theorem carry_loop_no_carry : ∀ (rest : List Int) (prev : Int), prev < BASE →
    (∀ d ∈ rest, d < BASE) → carry_loop prev rest = prev :: rest := by
  intro rest
  induction rest with
  | nil => intro prev _ _; rfl
  | cons d rest ih =>
    intro prev hp hr
    rw [carry_loop_cons, if_neg (by omega),
      ih d (hr d (List.mem_cons_self _ _)) (fun x hx => hr x (List.mem_cons_of_mem _ hx))]

theorem add_loop_zero_left : ∀ (a zs : List Int), (∀ d ∈ a, 0 ≤ d ∧ d < BASE) →
    add_loop (List.replicate a.length 0 ++ zs) a = .ok (a ++ zs) := by
  intro a
  induction a with
  | nil => intro zs _; exact add_loop_nil_right zs
  | cons d a ih =>
    intro zs h
    have hd := h d (List.mem_cons_self _ _)
    rw [BASE_eq] at hd
    rw [List.length_cons, List.replicate_succ, List.cons_append, add_loop_cons,
      ih zs (fun x hx => h x (List.mem_cons_of_mem _ hx)), zero_add,
      int32_eq_self (by omega) (by omega)]
    rfl

theorem add_untrimmed_zero_right (a : UnsignedBigint) (ha : a.canonical) :
    a.add_untrimmed UnsignedBigint.default = .ok (a.digits ++ [0]) := by
  obtain ⟨hne, hr, _⟩ := ha
  have hpos : 0 < a.digits.length := List.length_pos.mpr hne
  unfold UnsignedBigint.add_untrimmed UnsignedBigint.default
  simp only [List.length_singleton]
  rw [resize_grow _ _ (le_max_left _ _), max_eq_left (by omega), Nat.sub_self,
    List.replicate_zero, List.append_nil]
  cases hd : a.digits with
  | nil => exact absurd hd hne
  | cons d rest =>
    have hd0 := hr d (by rw [hd]; exact List.mem_cons_self _ _)
    have hrest : ∀ x ∈ rest ++ [0], x < BASE := by
      intro x hx
      rcases List.mem_append.mp hx with hx | hx
      · exact (hr x (by rw [hd]; exact List.mem_cons_of_mem _ hx)).2
      · rw [List.mem_singleton.mp hx]; exact BASE_pos
    rw [BASE_eq] at hd0
    rw [List.cons_append, add_loop_cons, add_loop_nil_right, add_zero,
      int32_eq_self (by omega) (by omega)]
    simp only
    rw [carry_loop_no_carry _ _ (by rw [BASE_eq]; omega) hrest]

theorem add_untrimmed_zero_left (a : UnsignedBigint) (ha : a.canonical) :
    UnsignedBigint.default.add_untrimmed a = .ok (a.digits ++ [0]) := by
  obtain ⟨hne, hr, _⟩ := ha
  have hpos : 0 < a.digits.length := List.length_pos.mpr hne
  unfold UnsignedBigint.add_untrimmed UnsignedBigint.default
  simp only [List.length_singleton]
  rw [resize_grow [0] (max 1 a.digits.length) (by simp), max_eq_right (by omega),
    List.length_singleton]
  have e : [(0 : Int)] ++ List.replicate (a.digits.length - 1) 0
      = List.replicate a.digits.length 0 := by
    conv_rhs => rw [show a.digits.length = (a.digits.length - 1) + 1 by omega,
      List.replicate_succ]
    rfl
  rw [e, add_loop_zero_left a.digits [0] hr]
  cases hd : a.digits with
  | nil => exact absurd hd hne
  | cons d rest =>
    have hd0 := hr d (by rw [hd]; exact List.mem_cons_self _ _)
    have hrest : ∀ x ∈ rest ++ [0], x < BASE := by
      intro x hx
      rcases List.mem_append.mp hx with hx | hx
      · exact (hr x (by rw [hd]; exact List.mem_cons_of_mem _ hx)).2
      · rw [List.mem_singleton.mp hx]; exact BASE_pos
    simp only [List.cons_append]
    rw [carry_loop_no_carry _ _ hd0.2 hrest]

/-! ## The claims on the algebra of addition and subtraction -/

/-- C12: subtraction inverts addition within the domain. For all canonical `a` and `b`,
`(a + b) - b` has exactly the limb sequence of `a`; and for canonical `a` and `b` with
`value a >= value b`, `(a - b) + b` has exactly the limb sequence of `a`. -/
theorem sub_inverts_add (a b : UnsignedBigint) (ha : a.canonical) (hb : b.canonical) :
    (a.add b >>= fun s => s.sub b) = Except.ok a ∧
    (b.value ≤ a.value → (a.sub b >>= fun d => d.add b) = Except.ok a) := by
  have ha0 := (canonical_value_bounds a ha).1
  constructor
  · obtain ⟨s, s1, s2, s3⟩ := add_spec a b ha hb
    obtain ⟨t, t1, t2, t3⟩ := sub_spec s b s2 hb (by omega)
    rw [s1, bind_ok, t1, canonical_ext t a t2 ha (by omega)]
  · intro hv
    obtain ⟨d, d1, d2, d3⟩ := sub_spec a b ha hb hv
    obtain ⟨t, t1, t2, t3⟩ := add_spec d b d2 hb
    rw [d1, bind_ok, t1, canonical_ext t a t2 ha (by omega)]

theorem sub_inverts_add_witness :
    (UnsignedBigint.mk [999999999, 5]).canonical ∧ (UnsignedBigint.mk [1]).canonical ∧
    (UnsignedBigint.mk [1]).value ≤ (UnsignedBigint.mk [999999999, 5]).value ∧
    ((UnsignedBigint.mk [999999999, 5]).add ⟨[1]⟩ >>= fun s => s.sub ⟨[1]⟩)
      = Except.ok (UnsignedBigint.mk [999999999, 5]) ∧
    ((UnsignedBigint.mk [999999999, 5]).sub ⟨[1]⟩ >>= fun d => d.add ⟨[1]⟩)
      = Except.ok (UnsignedBigint.mk [999999999, 5]) :=
  ⟨by decide, by decide, by decide,
    (sub_inverts_add ⟨[999999999, 5]⟩ ⟨[1]⟩ (by decide) (by decide)).1,
    (sub_inverts_add ⟨[999999999, 5]⟩ ⟨[1]⟩ (by decide) (by decide)).2 (by decide)⟩

/-- C13: addition is commutative at the representation level. For all canonical `a` and `b`,
whatever their limb counts, `a + b` and `b + a` return the same limb sequence, and that
value compares equal to itself with `==`. -/
theorem add_comm_limbs (a b : UnsignedBigint) (ha : a.canonical) (hb : b.canonical) :
    ∃ r, a.add b = .ok r ∧ b.add a = .ok r ∧ r.eq r = .ok true := by
  obtain ⟨r, r1, r2, r3⟩ := add_spec a b ha hb
  obtain ⟨t, t1, t2, t3⟩ := add_spec b a hb ha
  have : t = r := canonical_ext t r t2 r2 (by omega)
  subst this
  exact ⟨t, r1, t1, eq_self_of_canonical t t2⟩

theorem add_comm_limbs_witness :
    (UnsignedBigint.mk [999999999]).canonical ∧ (UnsignedBigint.mk [1, 0, 7]).canonical ∧
    (UnsignedBigint.mk [999999999]).add ⟨[1, 0, 7]⟩ = .ok ⟨[0, 1, 7]⟩ ∧
    (UnsignedBigint.mk [1, 0, 7]).add ⟨[999999999]⟩ = .ok ⟨[0, 1, 7]⟩ ∧
    ∃ r, (UnsignedBigint.mk [999999999]).add ⟨[1, 0, 7]⟩ = .ok r ∧
      (UnsignedBigint.mk [1, 0, 7]).add ⟨[999999999]⟩ = .ok r ∧ r.eq r = .ok true :=
  ⟨by decide, by decide, rfl, rfl,
    add_comm_limbs ⟨[999999999]⟩ ⟨[1, 0, 7]⟩ (by decide) (by decide)⟩

/-- C14: addition is associative. For all canonical `a`, `b` and `c`, `(a + b) + c` and
`a + (b + c)` return the same limb sequence. -/
theorem add_assoc_limbs (a b c : UnsignedBigint)
    (ha : a.canonical) (hb : b.canonical) (hc : c.canonical) :
    ∃ r, (a.add b >>= fun s => s.add c) = Except.ok r ∧
      (b.add c >>= fun t => a.add t) = Except.ok r := by
  obtain ⟨s, s1, s2, s3⟩ := add_spec a b ha hb
  obtain ⟨r, r1, r2, r3⟩ := add_spec s c s2 hc
  obtain ⟨t, t1, t2, t3⟩ := add_spec b c hb hc
  obtain ⟨u, u1, u2, u3⟩ := add_spec a t ha t2
  have : u = r := canonical_ext u r u2 r2 (by omega)
  subst this
  exact ⟨u, by rw [s1, bind_ok, r1], by rw [t1, bind_ok, u1]⟩

theorem add_assoc_limbs_witness :
    (UnsignedBigint.mk [999999999]).canonical ∧ (UnsignedBigint.mk [1]).canonical ∧
    (UnsignedBigint.mk [5, 999999999]).canonical ∧
    ∃ r, ((UnsignedBigint.mk [999999999]).add ⟨[1]⟩ >>= fun s => s.add ⟨[5, 999999999]⟩)
        = Except.ok r ∧
      ((UnsignedBigint.mk [1]).add ⟨[5, 999999999]⟩ >>=
        fun t => (UnsignedBigint.mk [999999999]).add t) = Except.ok r :=
  ⟨by decide, by decide, by decide,
    add_assoc_limbs ⟨[999999999]⟩ ⟨[1]⟩ ⟨[5, 999999999]⟩ (by decide) (by decide) (by decide)⟩

/-- C16: increment and decrement are coherent. For every canonical `a`, postfix `a++`
returns the limb sequence `a` had before the call and leaves `a` denoting `value a + 1`;
prefix `++a` returns the updated value, which is the state postfix leaves. For
`value a >= 1`, postfix `a--` returns the old value, prefix `--a` the updated one, and both
leave `a` denoting `value a - 1`. -/
theorem inc_dec_coherent (a : UnsignedBigint) (ha : a.canonical) :
    (∃ s, a.pre_inc = .ok s ∧ a.post_inc = .ok (a, s) ∧ s.value = a.value + 1) ∧
    (1 ≤ a.value →
      ∃ t, a.pre_dec = .ok t ∧ a.post_dec = .ok (a, t) ∧ t.value = a.value - 1) := by
  constructor
  · obtain ⟨s, s1, _, s3⟩ := add_spec a ⟨[1]⟩ ha one_canonical
    have hs : a.pre_inc = .ok s := s1
    refine ⟨s, hs, ?_, ?_⟩
    · unfold UnsignedBigint.post_inc; rw [hs]
    · rw [s3]; rfl
  · intro hv
    obtain ⟨t, t1, _, t3⟩ := sub_spec a ⟨[1]⟩ ha one_canonical hv
    have ht : a.pre_dec = .ok t := t1
    refine ⟨t, ht, ?_, ?_⟩
    · unfold UnsignedBigint.post_dec; rw [ht]
    · rw [t3]; rfl

theorem inc_dec_coherent_witness :
    (UnsignedBigint.mk [999999999]).canonical ∧
    (UnsignedBigint.mk [999999999]).post_inc = .ok (⟨[999999999]⟩, ⟨[0, 1]⟩) ∧
    (UnsignedBigint.mk [0, 1]).post_dec = .ok (⟨[0, 1]⟩, ⟨[999999999]⟩) ∧
    ∃ s, (UnsignedBigint.mk [999999999]).pre_inc = .ok s ∧
      (UnsignedBigint.mk [999999999]).post_inc = .ok (⟨[999999999]⟩, s) ∧
      s.value = (UnsignedBigint.mk [999999999]).value + 1 :=
  ⟨by decide, rfl, rfl, (inc_dec_coherent ⟨[999999999]⟩ (by decide)).1⟩

/-- C17: zero is the additive identity. For every canonical `a`, `a + 0` and `0 + a`, with
`0` the default-constructed value of limbs `[0]`, have exactly the limb sequence of `a`: in
both sums the vector after the two loops is the limbs of `a` with the extra limb `0` of the
resize on top, and `remove_leading_zeros` trims that limb away again. -/
theorem add_zero_identity (a : UnsignedBigint) (ha : a.canonical) :
    a.add UnsignedBigint.default = .ok a ∧ UnsignedBigint.default.add a = .ok a ∧
    UnsignedBigint.default.digits = [0] ∧
    a.add_untrimmed UnsignedBigint.default = .ok (a.digits ++ [0]) ∧
    UnsignedBigint.default.add_untrimmed a = .ok (a.digits ++ [0]) ∧
    remove_leading_zeros (a.digits ++ [0]) = .ok a.digits := by
  have htrim : remove_leading_zeros (a.digits ++ [0]) = .ok a.digits := by
    rw [remove_leading_zeros_snoc_zero _ ha.1, remove_leading_zeros_canonical a ha]
  refine ⟨?_, ?_, rfl, add_untrimmed_zero_right a ha, add_untrimmed_zero_left a ha, htrim⟩
  · show a.add_assign _ = _
    rw [add_assign_eq_untrimmed, add_untrimmed_zero_right a ha]
    simp only [htrim]
    rfl
  · show UnsignedBigint.add_assign _ a = _
    rw [add_assign_eq_untrimmed, add_untrimmed_zero_left a ha]
    simp only [htrim]
    rfl

theorem add_zero_identity_witness :
    (UnsignedBigint.mk [999999999, 999999999]).canonical ∧
    (UnsignedBigint.mk [999999999, 999999999]).add UnsignedBigint.default
      = .ok ⟨[999999999, 999999999]⟩ ∧
    UnsignedBigint.default.add ⟨[999999999, 999999999]⟩ = .ok ⟨[999999999, 999999999]⟩ :=
  ⟨by decide, (add_zero_identity ⟨[999999999, 999999999]⟩ (by decide)).1,
    (add_zero_identity ⟨[999999999, 999999999]⟩ (by decide)).2.1⟩

theorem ofUInt32_canonical (n : Nat) :
    ∃ r, UnsignedBigint.ofUInt32 n = .ok r ∧ r.canonical ∧ r.value = (n : Int) := by
  obtain ⟨t1, t2, t3, _⟩ := toDigits_spec n
  obtain ⟨r, r1, r2, r3⟩ := ofString_spec _ t3 t1
  rw [t2] at r3
  exact ⟨r, r1, r2, r3⟩

/-- C18: canonical form is an invariant of every operation. The default constructor, the
`uint32_t` constructor (on every natural number, the 32-bit ones included), the string
constructor on a non-empty string of ASCII digits, `+=`
and `++` on canonical operands, and `-=` and `--` on canonical operands with the receiver at
least the subtrahend each yield a limb sequence that is non-empty, has every limb in
`[0, 10^9)`, and has length 1 or a non-zero top limb. -/
theorem canonical_invariant (a b : UnsignedBigint) (n : Nat) (s : List Char)
    (ha : a.canonical) (hb : b.canonical) (hs : s ≠ []) (hd : ∀ c ∈ s, isdigit c = true) :
    UnsignedBigint.default.canonical ∧
    (∃ r, UnsignedBigint.ofUInt32 n = .ok r ∧ r.canonical) ∧
    (∃ r, UnsignedBigint.ofString s = .ok r ∧ r.canonical) ∧
    (∃ r, a.add_assign b = .ok r ∧ r.canonical) ∧
    (∃ r, a.add b = .ok r ∧ r.canonical) ∧
    (∃ r, a.pre_inc = .ok r ∧ a.post_inc = .ok (a, r) ∧ r.canonical) ∧
    (b.value ≤ a.value → ∃ r, a.sub_assign b = .ok r ∧ r.canonical) ∧
    (b.value ≤ a.value → ∃ r, a.sub b = .ok r ∧ r.canonical) ∧
    (1 ≤ a.value → ∃ r, a.pre_dec = .ok r ∧ a.post_dec = .ok (a, r) ∧ r.canonical) ∧
    (∀ r : UnsignedBigint, r.canonical ↔
      r.digits ≠ [] ∧ (∀ d ∈ r.digits, 0 ≤ d ∧ d < 1000000000) ∧
        (r.digits.length = 1 ∨ r.digits.getLast? ≠ some 0)) := by
  refine ⟨by decide, ?_, ?_, ?_, ?_, ?_, ?_, ?_, ?_, fun r => Iff.rfl⟩
  · obtain ⟨r, r1, r2, _⟩ := ofUInt32_canonical n
    exact ⟨r, r1, r2⟩
  · obtain ⟨r, r1, r2, _⟩ := ofString_spec s hs hd
    exact ⟨r, r1, r2⟩
  · obtain ⟨r, r1, r2, _⟩ := add_spec a b ha hb
    exact ⟨r, r1, r2⟩
  · obtain ⟨r, r1, r2, _⟩ := add_spec a b ha hb
    exact ⟨r, r1, r2⟩
  · obtain ⟨r, r1, r2, _⟩ := add_spec a ⟨[1]⟩ ha one_canonical
    have hr : a.pre_inc = .ok r := r1
    exact ⟨r, hr, by unfold UnsignedBigint.post_inc; rw [hr], r2⟩
  · intro hv
    obtain ⟨r, r1, r2, _⟩ := sub_spec a b ha hb hv
    exact ⟨r, r1, r2⟩
  · intro hv
    obtain ⟨r, r1, r2, _⟩ := sub_spec a b ha hb hv
    exact ⟨r, r1, r2⟩
  · intro hv
    obtain ⟨r, r1, r2, _⟩ := sub_spec a ⟨[1]⟩ ha one_canonical hv
    have hr : a.pre_dec = .ok r := r1
    exact ⟨r, hr, by unfold UnsignedBigint.post_dec; rw [hr], r2⟩

theorem canonical_invariant_witness :
    (UnsignedBigint.mk [0, 1]).canonical ∧ (UnsignedBigint.mk [1]).canonical ∧
    "000".toList ≠ [] ∧ (∀ c ∈ "000".toList, isdigit c = true) ∧
    UnsignedBigint.ofString "000".toList = .ok ⟨[0]⟩ ∧
    (UnsignedBigint.mk [0, 1]).sub_assign ⟨[1]⟩ = .ok ⟨[999999999]⟩ ∧
    (∃ r, UnsignedBigint.ofString "000".toList = .ok r ∧ r.canonical) ∧
    (∃ r, (UnsignedBigint.mk [0, 1]).add_assign ⟨[1]⟩ = .ok r ∧ r.canonical) :=
  ⟨by decide, by decide, by decide, by decide, rfl, rfl,
    (canonical_invariant ⟨[0, 1]⟩ ⟨[1]⟩ 7 "000".toList (by decide) (by decide) (by decide)
      (by decide)).2.2.1,
    (canonical_invariant ⟨[0, 1]⟩ ⟨[1]⟩ 7 "000".toList (by decide) (by decide) (by decide)
      (by decide)).2.2.2.1⟩

/-! ### The string constructor on arbitrary strings -/

theorem stoi_windows_cons (w : List Char) (ws : List (List Char)) :
    stoi_windows (w :: ws) =
      match stoi w with
      | .error e => .error e
      | .ok v =>
        match stoi_windows ws with
        | .error e => .error e
        | .ok vs => .ok (v :: vs) := rfl

theorem stoi_windows_snoc (ws : List (List Char)) (w : List Char) :
    stoi_windows (ws ++ [w]) =
      match stoi_windows ws with
      | .error e => .error e
      | .ok vs =>
        match stoi w with
        | .error e => .error e
        | .ok v => .ok (vs ++ [v]) := by
  induction ws with
  | nil =>
    rw [List.nil_append, stoi_windows_cons]
    cases stoi w <;> rfl
  | cons x ws ih =>
    rw [List.cons_append, stoi_windows_cons, stoi_windows_cons, ih]
    cases stoi x with
    | error e => rfl
    | ok v =>
      cases stoi_windows ws with
      | error e => rfl
      | ok vs => cases stoi w <;> rfl

theorem ofString_loop_windows (s : List Char) :
    ∀ (fuel pos : Nat) (digits : List Int), pos ≤ fuel →
    ofString_loop s fuel pos digits =
      match stoi_windows ((List.range (pos / 9)).map
          (fun k => substr s (pos - 9 * (k + 1)) 9)) with
      | .error e => .error e
      | .ok vs => .ok (pos % 9, digits ++ vs) := by
  intro fuel
  induction fuel with
  | zero =>
    intro pos digits hf
    have : pos = 0 := by omega
    subst this
    simp [ofString_loop, stoi_windows]
  | succ fuel ih =>
    intro pos digits hf
    by_cases h9 : 9 ≤ pos
    · have hdiv : pos / 9 = (pos - 9) / 9 + 1 := by omega
      have hmod : (pos - 9) % 9 = pos % 9 := by omega
      have hmap : (List.range ((pos - 9) / 9)).map
            (fun k => substr s (pos - 9 * (k + 1 + 1)) 9)
          = (List.range ((pos - 9) / 9)).map
            (fun k => substr s (pos - 9 - 9 * (k + 1)) 9) := by
        apply List.map_congr_left
        intro k _
        congr 1; omega
      rw [hdiv, List.range_succ_eq_map, List.map_cons, List.map_map, stoi_windows_cons]
      simp only [ofString_loop, digit_length_eq, h9, ite_true, Function.comp_def, Nat.succ_eq_add_one,
        zero_add, mul_one]
      cases hst : stoi (substr s (pos - 9) 9) with
      | error e => rfl
      | ok v =>
        simp only
        rw [ih (pos - 9) (digits ++ [v]) (by omega), hmod, hmap]
        cases stoi_windows ((List.range ((pos - 9) / 9)).map
            (fun k => substr s (pos - 9 - 9 * (k + 1)) 9)) with
        | error e => rfl
        | ok vs => simp
    · have hdiv : pos / 9 = 0 := by omega
      rw [hdiv]
      simp only [ofString_loop, digit_length_eq, h9, ite_false, List.range_zero, List.map_nil,
        stoi_windows, List.append_nil]
      rw [Nat.mod_eq_of_lt (by omega)]

/-- The string constructor converts the windows of its argument with `std::stoi`, in order,
and trims the limbs read. -/
theorem ofString_eq_windows (s : List Char) :
    UnsignedBigint.ofString s =
      match stoi_windows (windows s) with
      | .error e => .error e
      | .ok limbs => (remove_leading_zeros limbs).map UnsignedBigint.mk := by
  unfold UnsignedBigint.ofString windows
  rw [ofString_loop_windows s s.length s.length [] (le_refl _), digit_length_eq]
  by_cases hm : s.length % 9 = 0
  · simp only [hm, ne_eq, not_true_eq_false, ite_false, List.append_nil, List.nil_append]
    cases stoi_windows ((List.range (s.length / 9)).map
        (fun k => substr s (s.length - 9 * (k + 1)) 9)) with
    | error e => rfl
    | ok vs => rfl
  · simp only [hm, ne_eq, not_false_eq_true, ite_true, List.nil_append]
    rw [stoi_windows_snoc]
    cases stoi_windows ((List.range (s.length / 9)).map
        (fun k => substr s (s.length - 9 * (k + 1)) 9)) with
    | error e => rfl
    | ok vs =>
      simp only
      rw [if_pos hm]
      cases stoi (substr s 0 (s.length % 9)) <;> rfl

theorem stoi_short (w : List Char) (h : w.length ≤ 9) :
    (∃ v, stoi w = .ok v) ∨ stoi w = .error .invalid_argument := by
  unfold stoi
  simp only []
  generalize hs2 : (if (List.dropWhile isspace w).head? = some '-' ∨
      (List.dropWhile isspace w).head? = some '+' then (List.dropWhile isspace w).tail
      else List.dropWhile isspace w) = s2
  have hlen1 := (List.dropWhile_sublist isspace (l := w)).length_le
  have hlen2 : s2.length ≤ 9 := by
    rw [← hs2]
    split
    · rw [List.length_tail]; omega
    · omega
  by_cases hrun : List.takeWhile isdigit s2 = []
  · right; rw [if_pos hrun]
  · left
    rw [if_neg hrun]
    have hd : ∀ c ∈ List.takeWhile isdigit s2, isdigit c = true :=
      fun c hc => List.mem_takeWhile_imp hc
    have hlt := decimal_value_lt _ hd
    have hlen3 := (List.takeWhile_sublist isdigit (l := s2)).length_le
    have hpow : 10 ^ (List.takeWhile isdigit s2).length ≤ 10 ^ 9 :=
      Nat.pow_le_pow_right (by decide) (by omega)
    by_cases hneg : (List.dropWhile isspace w).head? = some '-'
    · simp only [hneg, decide_True, ite_true]
      rw [if_neg (by omega)]
      exact ⟨_, rfl⟩
    · simp only [hneg, decide_False, Bool.false_eq_true, ite_false]
      rw [if_neg (by omega)]
      exact ⟨_, rfl⟩

theorem windows_length_le (s : List Char) : ∀ w ∈ windows s, w.length ≤ 9 := by
  intro w hw
  unfold windows at hw
  rcases List.mem_append.mp hw with hw | hw
  · obtain ⟨k, _, rfl⟩ := List.mem_map.mp hw
    simp only [substr, List.length_take, digit_length_eq]
    omega
  · split at hw
    · rw [List.mem_singleton.mp hw]
      simp only [substr, List.length_take, digit_length_eq]
      omega
    · simp at hw

theorem windows_ne_nil (s : List Char) (hs : s ≠ []) : windows s ≠ [] := by
  have hL : 0 < s.length := List.length_pos.mpr hs
  unfold windows
  rw [digit_length_eq]
  by_cases hm : s.length % 9 = 0
  · have : s.length / 9 = (s.length / 9 - 1) + 1 := by omega
    rw [this, List.range_succ_eq_map]
    simp
  · simp [hm]

theorem stoi_windows_all_ok : ∀ (ws : List (List Char)),
    (∀ w ∈ ws, ∃ v, stoi w = .ok v) →
    ∃ vs, stoi_windows ws = .ok vs ∧ vs.length = ws.length := by
  intro ws
  induction ws with
  | nil => intro _; exact ⟨[], rfl, rfl⟩
  | cons w ws ih =>
    intro h
    obtain ⟨v, hv⟩ := h w (List.mem_cons_self _ _)
    obtain ⟨vs, h1, h2⟩ := ih (fun x hx => h x (List.mem_cons_of_mem _ hx))
    exact ⟨v :: vs, by rw [stoi_windows_cons, hv, h1], by simp [h2]⟩

theorem stoi_windows_some_invalid : ∀ (ws : List (List Char)),
    (∀ w ∈ ws, w.length ≤ 9) → (∃ w ∈ ws, stoi w = .error .invalid_argument) →
    stoi_windows ws = .error .invalid_argument := by
  intro ws
  induction ws with
  | nil => intro _ h; obtain ⟨w, hw, _⟩ := h; simp at hw
  | cons x ws ih =>
    intro hlen h
    rw [stoi_windows_cons]
    rcases stoi_short x (hlen x (List.mem_cons_self _ _)) with ⟨v, hv⟩ | hx
    · rw [hv]
      obtain ⟨w, hw, hbad⟩ := h
      rcases List.mem_cons.mp hw with rfl | hw
      · rw [hv] at hbad; cases hbad
      · rw [ih (fun y hy => hlen y (List.mem_cons_of_mem _ hy)) ⟨w, hw, hbad⟩]
    · rw [hx]

theorem stoi_invalid_iff (w : List Char) :
    stoi w = .error .invalid_argument ↔ stoi_digit_run w = [] := by
  unfold stoi stoi_digit_run
  simp only []
  constructor
  · intro h
    by_contra hrun
    rw [if_neg hrun] at h
    split_ifs at h <;> exact absurd (Except.error.inj h) (by decide)
  · intro h
    rw [if_pos h]

/-- C11 fails as stated: strings with a character outside `0`-`9` are accepted whenever
`std::stoi` reads a digit from every window. `"-5"` yields the limb `-5`, `"+7"` the limb
`7`, `" 12"` and `"12a"` the limb `12`. -/
theorem ofString_accepts_non_digits :
    (∃ c ∈ "-5".toList, isdigit c = false) ∧
    UnsignedBigint.ofString "-5".toList = .ok ⟨[-5]⟩ ∧
    (∃ c ∈ "+7".toList, isdigit c = false) ∧
    UnsignedBigint.ofString "+7".toList = .ok ⟨[7]⟩ ∧
    (∃ c ∈ " 12".toList, isdigit c = false) ∧
    UnsignedBigint.ofString " 12".toList = .ok ⟨[12]⟩ ∧
    (∃ c ∈ "12a".toList, isdigit c = false) ∧
    UnsignedBigint.ofString "12a".toList = .ok ⟨[12]⟩ :=
  ⟨by decide, rfl, by decide, rfl, by decide, rfl, by decide, rfl⟩

/-- C11 (amended): a string is rejected only where `std::stoi` throws. The constructor
converts the windows of the string (9 characters each from the right, then the leftmost
rest) with `std::stoi`, which skips leading whitespace, accepts one optional sign and stops
at the first non-digit. For every non-empty string the construction fails, with
`std::invalid_argument` and without a value, exactly when some window has an empty digit
run, as for `"abc"`; it produces a value exactly when every window has a digit to read,
also when the string holds characters outside `0`-`9`: `"-5"` gives the limb `-5`, `"+7"`
gives `7`, `" 12"` and `"12a"` give `12`. -/
theorem ofString_rejects_digitless_windows (s : List Char) (hs : s ≠ []) :
    (UnsignedBigint.ofString s =
      match stoi_windows (windows s) with
      | .error e => .error e
      | .ok limbs => (remove_leading_zeros limbs).map UnsignedBigint.mk) ∧
    (UnsignedBigint.ofString s = .error .invalid_argument ↔
      ∃ w ∈ windows s, stoi_digit_run w = []) ∧
    ((∃ r, UnsignedBigint.ofString s = .ok r) ↔ ∀ w ∈ windows s, stoi_digit_run w ≠ []) ∧
    (∀ w ∈ windows s, stoi_digit_run w ≠ [] → ∃ v, stoi w = .ok v) ∧
    UnsignedBigint.ofString "abc".toList = .error .invalid_argument ∧
    UnsignedBigint.ofString "-5".toList = .ok ⟨[-5]⟩ ∧
    UnsignedBigint.ofString "+7".toList = .ok ⟨[7]⟩ ∧
    UnsignedBigint.ofString " 12".toList = .ok ⟨[12]⟩ ∧
    UnsignedBigint.ofString "12a".toList = .ok ⟨[12]⟩ := by
  have hlen := windows_length_le s
  have hread : ∀ w ∈ windows s, stoi_digit_run w ≠ [] → ∃ v, stoi w = .ok v := by
    intro w hw hrun
    rcases stoi_short w (hlen w hw) with h | h
    · exact h
    · exact absurd ((stoi_invalid_iff w).mp h) hrun
  have hbad : (∃ w ∈ windows s, stoi_digit_run w = []) →
      UnsignedBigint.ofString s = .error .invalid_argument := by
    intro h
    obtain ⟨w, hw, hrun⟩ := h
    rw [ofString_eq_windows,
      stoi_windows_some_invalid _ hlen ⟨w, hw, (stoi_invalid_iff w).mpr hrun⟩]
  have hgood : (∀ w ∈ windows s, stoi_digit_run w ≠ []) →
      ∃ r, UnsignedBigint.ofString s = .ok r := by
    intro h
    obtain ⟨vs, v1, v2⟩ := stoi_windows_all_ok _ (fun w hw => hread w hw (h w hw))
    have hne : vs ≠ [] := by
      intro h0
      rw [h0] at v2
      exact windows_ne_nil s hs (List.length_eq_zero.mp v2.symm)
    obtain ⟨r, _, r1, _⟩ := remove_leading_zeros_shape vs hne
    exact ⟨⟨r⟩, by rw [ofString_eq_windows, v1]; simp only [r1]; rfl⟩
  refine ⟨ofString_eq_windows s, ⟨?_, hbad⟩, ⟨?_, hgood⟩, hread, rfl, rfl, rfl, rfl, rfl⟩
  · intro h
    by_contra hno
    obtain ⟨r, hr⟩ := hgood (fun w hw hrun => hno ⟨w, hw, hrun⟩)
    rw [hr] at h
    cases h
  · intro h w hw hrun
    obtain ⟨r, hr⟩ := h
    rw [hbad ⟨w, hw, hrun⟩] at hr
    cases hr

theorem ofString_rejects_digitless_windows_witness :
    "12a4567890".toList ≠ [] ∧
    windows "12a4567890".toList = ["2a4567890".toList, "1".toList] ∧
    stoi "2a4567890".toList = .ok 2 ∧
    UnsignedBigint.ofString "12a4567890".toList = .ok ⟨[2, 1]⟩ ∧
    ((∃ r, UnsignedBigint.ofString "12a4567890".toList = .ok r) ↔
      ∀ w ∈ windows "12a4567890".toList, stoi_digit_run w ≠ []) :=
  ⟨by decide, by decide, rfl, rfl,
    (ofString_rejects_digitless_windows "12a4567890".toList (by decide)).2.2.1⟩

/-! ### Limb counts of canonical values -/

theorem canonical_length_le (r : UnsignedBigint) (hr : r.canonical) (n : Nat)
    (hv : r.value < BASE ^ n) (hn : 1 ≤ n) : r.digits.length ≤ n := by
  by_contra hgt
  have h1 := canonical_value_ge r hr (by omega)
  have h2 : BASE ^ n ≤ BASE ^ (r.digits.length - 1) :=
    pow_le_pow_right₀ (by decide) (by omega)
  linarith

theorem canonical_length_ge (r : UnsignedBigint) (hr : r.canonical) (n : Nat)
    (hv : BASE ^ n ≤ r.value) : n + 1 ≤ r.digits.length := by
  by_contra hlt
  have h1 := (canonical_value_bounds r hr).2
  have h2 : BASE ^ r.digits.length ≤ BASE ^ n :=
    pow_le_pow_right₀ (by decide) (by omega)
  linarith

theorem add_length_le (a c x : UnsignedBigint) (ha : a.canonical) (hc : c.canonical)
    (hx : x.canonical) (hv : x.value = a.value + c.value) (n : Nat)
    (hla : a.digits.length ≤ n) (hlc : c.digits.length ≤ n) : x.digits.length ≤ n + 1 := by
  have h1 := (canonical_value_bounds a ha).2
  have h2 := (canonical_value_bounds c hc).2
  have h3 : BASE ^ a.digits.length ≤ BASE ^ n := pow_le_pow_right₀ (by decide) hla
  have h4 : BASE ^ c.digits.length ≤ BASE ^ n := pow_le_pow_right₀ (by decide) hlc
  have hp := BASE_pow_pos n
  apply canonical_length_le x hx (n + 1) _ (by omega)
  rw [hv, pow_succ, BASE_eq]
  rw [BASE_eq] at h1 h2 h3 h4 hp
  linarith

/-! ### Values too long for the narrowing in `compare` -/

theorem long_le_one (k : Nat) (hk : k = 2147483649) :
    (UnsignedBigint.mk (List.replicate k 0 ++ [1])).le ⟨[1]⟩ = .ok true := by
  obtain ⟨_, _, h3⟩ := power_limbs_spec k
  unfold UnsignedBigint.le
  rw [compare_length_ne _ _ (by rw [h3]; simp only [List.length_singleton]; omega), h3]
  subst hk
  rfl

theorem long_sums_not_le (k : Nat) (hk : 1 ≤ k) :
    ∃ x y, (UnsignedBigint.mk (List.replicate k 0 ++ [1])).add
          ⟨List.replicate k 0 ++ [1]⟩ = .ok x ∧
      (UnsignedBigint.mk [1]).add ⟨List.replicate k 0 ++ [1]⟩ = .ok y ∧
      x.le y = .ok false := by
  obtain ⟨hcan, hval, _⟩ := power_limbs_spec k
  obtain ⟨x, x1, x2, x3⟩ := add_spec _ _ hcan hcan
  obtain ⟨y, y1, y2, y3⟩ := add_spec _ _ one_canonical hcan
  rw [hval] at x3 y3
  have hone : (UnsignedBigint.mk [1]).value = 1 := rfl
  rw [hone] at y3
  have hp1 : BASE ^ 1 ≤ BASE ^ k := pow_le_pow_right₀ (by decide) hk
  rw [pow_one] at hp1
  have hB : (2 : Int) < BASE := by decide
  have hsucc : BASE ^ (k + 1) = BASE ^ k * BASE := pow_succ BASE k
  have hpos := BASE_pow_pos k
  have hmul : BASE ^ k * 2 < BASE ^ k * BASE := mul_lt_mul_of_pos_left hB hpos
  have hxl : x.digits.length = k + 1 := by
    have h1 := canonical_length_le x x2 (k + 1) (by rw [x3, hsucc]; linarith) (by omega)
    have h2 := canonical_length_ge x x2 k (by rw [x3]; linarith)
    omega
  have hyl : y.digits.length = k + 1 := by
    have h1 := canonical_length_le y y2 (k + 1) (by rw [y3, hsucc]; linarith) (by omega)
    have h2 := canonical_length_ge y y2 k (by rw [y3]; linarith)
    omega
  obtain ⟨c, hc, _, c2⟩ := compare_same_length x y x2 y2 (by rw [hxl, hyl])
  have hcpos : 0 < c := c2.mpr (by rw [x3, y3]; linarith)
  refine ⟨x, y, x1, y1, ?_⟩
  unfold UnsignedBigint.le
  rw [hc]
  simp only [Except.map]
  congr 1
  exact decide_eq_false (by omega)

/-- C15 fails as stated: `operator<=` goes through `compare`, which narrows the limb counts
to `int`. For `a = c` the canonical value with `2^31 + 2` limbs (a one above `2^31 + 1` zero
limbs) and `b = 1`, `a <= b` is reported, while `a + c <= b + c` is not. -/
theorem add_monotone_counterexample :
    (UnsignedBigint.mk (List.replicate 2147483649 0 ++ [1])).canonical ∧
    (UnsignedBigint.mk [1]).canonical ∧
    (UnsignedBigint.mk (List.replicate 2147483649 0 ++ [1])).le ⟨[1]⟩ = .ok true ∧
    ∃ x y, (UnsignedBigint.mk (List.replicate 2147483649 0 ++ [1])).add
          ⟨List.replicate 2147483649 0 ++ [1]⟩ = .ok x ∧
      (UnsignedBigint.mk [1]).add ⟨List.replicate 2147483649 0 ++ [1]⟩ = .ok y ∧
      x.le y = .ok false :=
  ⟨(power_limbs_spec 2147483649).1, one_canonical, long_le_one 2147483649 rfl,
    long_sums_not_le 2147483649 (by decide)⟩

/-- C15 (amended): addition is monotone with respect to `operator<=` on values whose limb
counts, and those of the sums, fit in `int`: for all canonical `a`, `b` and `c` with fewer
than `2^31 - 1` limbs each, if `a <= b` then `a + c <= b + c`. -/
theorem add_monotone (a b c : UnsignedBigint)
    (ha : a.canonical) (hb : b.canonical) (hc : c.canonical)
    (hla : a.digits.length < 2147483647) (hlb : b.digits.length < 2147483647)
    (hlc : c.digits.length < 2147483647) (hle : a.le b = .ok true) :
    ∃ x y, a.add c = .ok x ∧ b.add c = .ok y ∧ x.le y = .ok true := by
  obtain ⟨x, x1, x2, x3⟩ := add_spec a c ha hc
  obtain ⟨y, y1, y2, y3⟩ := add_spec b c hb hc
  have hxl := add_length_le a c x ha hc x2 x3 2147483646 (by omega) (by omega)
  have hyl := add_length_le b c y hb hc y2 y3 2147483646 (by omega) (by omega)
  have h1 := (relational_spec a b ha hb (by omega) (by omega)).2.2.2.1
  have h2 := (relational_spec x y x2 y2 (by omega) (by omega)).2.2.2.1
  rw [h1] at hle
  have hab : a.value ≤ b.value := by simpa using hle
  refine ⟨x, y, x1, y1, ?_⟩
  rw [h2]
  congr 1
  exact decide_eq_true (by omega)

theorem add_monotone_witness :
    (UnsignedBigint.mk [5]).canonical ∧ (UnsignedBigint.mk [0, 1]).canonical ∧
    (UnsignedBigint.mk [999999999]).canonical ∧
    (UnsignedBigint.mk [5]).le ⟨[0, 1]⟩ = .ok true ∧
    ∃ x y, (UnsignedBigint.mk [5]).add ⟨[999999999]⟩ = .ok x ∧
      (UnsignedBigint.mk [0, 1]).add ⟨[999999999]⟩ = .ok y ∧ x.le y = .ok true :=
  ⟨by decide, by decide, by decide, rfl,
    add_monotone ⟨[5]⟩ ⟨[0, 1]⟩ ⟨[999999999]⟩ (by decide) (by decide) (by decide)
      (by decide) (by decide) (by decide) rfl⟩

/-! ### Intermediate states of `operator+=` -/

theorem getLast?_cons_ne_nil {α : Type} (x : α) (l : List α) (h : l ≠ []) :
    (x :: l).getLast? = l.getLast? := by
  cases l with
  | nil => exact absurd rfl h
  | cons y t => simp [List.getLast?]

theorem add_loop_states_nil_right (done ds : List Int) :
    add_loop_states done ds [] = [done ++ ds] := by
  cases ds <;> rfl

theorem add_loop_states_cons (done : List Int) (d o : Int) (ds os : List Int) :
    add_loop_states done (d :: ds) (o :: os) =
      (done ++ d :: ds) :: add_loop_states (done ++ [int32 (d + o)]) ds os := rfl

theorem add_loop_raw_nil_right (ds : List Int) : add_loop_raw ds [] = [] := by
  cases ds <;> rfl

theorem add_loop_raw_cons (d o : Int) (ds os : List Int) :
    add_loop_raw (d :: ds) (o :: os) = (d + o) :: add_loop_raw ds os := rfl

theorem add_loop_states_spec : ∀ (ds os done : List Int), os.length ≤ ds.length →
    (∀ d ∈ done, 0 ≤ d ∧ d ≤ 2 * (BASE - 1)) →
    (∀ d ∈ ds, 0 ≤ d ∧ d < BASE) → (∀ d ∈ os, 0 ≤ d ∧ d < BASE) →
    (∀ st ∈ add_loop_states done ds os, ∀ d ∈ st, 0 ≤ d ∧ d ≤ 2 * (BASE - 1)) ∧
    (∀ v ∈ add_loop_raw ds os, 0 ≤ v ∧ v ≤ 2 * (BASE - 1)) ∧
    ∃ r, add_loop ds os = .ok r ∧ (add_loop_states done ds os).getLast? = some (done ++ r) := by
  intro ds
  induction ds with
  | nil =>
    intro os done hlen hdone _ _
    have : os = [] := List.length_eq_zero.mp (by simpa using hlen)
    subst this
    refine ⟨?_, by simp [add_loop_raw], [], rfl, rfl⟩
    intro st hst d hd
    rw [add_loop_states_nil_right, List.mem_singleton] at hst
    rw [hst, List.append_nil] at hd
    exact hdone d hd
  | cons x ds ih =>
    intro os done hlen hdone hds hos
    have hcur : ∀ d ∈ done ++ x :: ds, 0 ≤ d ∧ d ≤ 2 * (BASE - 1) := by
      intro d hd
      rcases List.mem_append.mp hd with hd | hd
      · exact hdone d hd
      · have := hds d hd
        rw [BASE_eq] at this ⊢
        omega
    cases os with
    | nil =>
      refine ⟨?_, by simp [add_loop_raw], x :: ds, rfl, rfl⟩
      intro st hst d hd
      rw [add_loop_states_nil_right, List.mem_singleton] at hst
      rw [hst] at hd
      exact hcur d hd
    | cons o os =>
      have hx := hds x (List.mem_cons_self _ _)
      have ho := hos o (List.mem_cons_self _ _)
      rw [BASE_eq] at hx ho
      have hw : int32 (x + o) = x + o := int32_eq_self (by omega) (by omega)
      have hdone' : ∀ d ∈ done ++ [int32 (x + o)], 0 ≤ d ∧ d ≤ 2 * (BASE - 1) := by
        intro d hd
        rcases List.mem_append.mp hd with hd | hd
        · exact hdone d hd
        · rw [List.mem_singleton.mp hd, hw, BASE_eq]; omega
      obtain ⟨i1, i2, r, i3, i4⟩ := ih os (done ++ [int32 (x + o)]) (by simpa using hlen) hdone'
        (fun d hd => hds d (List.mem_cons_of_mem _ hd))
        (fun d hd => hos d (List.mem_cons_of_mem _ hd))
      rw [add_loop_states_cons, add_loop_raw_cons]
      refine ⟨?_, ?_, int32 (x + o) :: r, by rw [add_loop_cons, i3], ?_⟩
      · intro st hst d hd
        rcases List.mem_cons.mp hst with rfl | hst
        · exact hcur d hd
        · exact i1 st hst d hd
      · intro v hv
        rcases List.mem_cons.mp hv with rfl | hv
        · rw [BASE_eq]; omega
        · exact i2 v hv
      · have hne : add_loop_states (done ++ [int32 (x + o)]) ds os ≠ [] := by
          intro h0; rw [h0] at i4; simp at i4
        rw [getLast?_cons_ne_nil _ _ hne, i4, List.append_assoc]
        rfl

theorem carry_loop_states_nil (done : List Int) (prev : Int) :
    carry_loop_states done prev [] = [done ++ [prev]] := rfl

theorem carry_loop_states_cons (done : List Int) (prev d : Int) (rest : List Int) :
    carry_loop_states done prev (d :: rest) =
      if BASE ≤ prev then
        (done ++ prev :: d :: rest) :: (done ++ int32 (prev - BASE) :: d :: rest) ::
          carry_loop_states (done ++ [int32 (prev - BASE)]) (int32 (d + 1)) rest
      else (done ++ prev :: d :: rest) :: carry_loop_states (done ++ [prev]) d rest := rfl

theorem carry_loop_raw_cons (prev d : Int) (rest : List Int) :
    carry_loop_raw prev (d :: rest) =
      if BASE ≤ prev then (prev - BASE) :: (d + 1) :: carry_loop_raw (int32 (d + 1)) rest
      else carry_loop_raw d rest := rfl

theorem carry_loop_carries_cons (prev d : Int) (rest : List Int) :
    carry_loop_carries prev (d :: rest) =
      if BASE ≤ prev then (int32 (d + 1) - d) :: carry_loop_carries (int32 (d + 1)) rest
      else 0 :: carry_loop_carries d rest := rfl

theorem carry_loop_states_spec : ∀ (rest done : List Int) (prev : Int),
    (∀ d ∈ done, 0 ≤ d ∧ d < BASE) → 0 ≤ prev → prev ≤ 2 * (BASE - 1) + 1 →
    (∀ d ∈ rest, 0 ≤ d ∧ d ≤ 2 * (BASE - 1)) →
    (∀ st ∈ carry_loop_states done prev rest, ∀ d ∈ st, 0 ≤ d ∧ d ≤ 2 * (BASE - 1) + 1) ∧
    (∀ v ∈ carry_loop_raw prev rest, 0 ≤ v ∧ v ≤ 2 * (BASE - 1) + 1) ∧
    (∀ c ∈ carry_loop_carries prev rest, c = 0 ∨ c = 1) ∧
    (carry_loop_states done prev rest).getLast? = some (done ++ carry_loop prev rest) := by
  intro rest
  induction rest with
  | nil =>
    intro done prev hdone h0 h1 _
    refine ⟨?_, by simp [carry_loop_raw], by simp [carry_loop_carries], rfl⟩
    intro st hst d hd
    rw [carry_loop_states_nil, List.mem_singleton] at hst
    rw [hst] at hd
    rcases List.mem_append.mp hd with hd | hd
    · have := hdone d hd
      rw [BASE_eq] at this ⊢; omega
    · rw [List.mem_singleton.mp hd]; exact ⟨h0, h1⟩
  | cons x rest ih =>
    intro done prev hdone h0 h1 hrest
    have hx := hrest x (List.mem_cons_self _ _)
    have hrest' : ∀ d ∈ rest, 0 ≤ d ∧ d ≤ 2 * (BASE - 1) :=
      fun d hd => hrest d (List.mem_cons_of_mem _ hd)
    have hwide : ∀ d ∈ done, 0 ≤ d ∧ d ≤ 2 * (BASE - 1) + 1 := by
      intro d hd
      have := hdone d hd
      rw [BASE_eq] at this ⊢; omega
    have hrestw : ∀ d ∈ rest, 0 ≤ d ∧ d ≤ 2 * (BASE - 1) + 1 := by
      intro d hd
      have := hrest' d hd
      omega
    rw [BASE_eq] at h1 hx
    rw [carry_loop_states_cons, carry_loop_raw_cons, carry_loop_carries_cons, carry_loop_cons]
    by_cases hc : BASE ≤ prev
    · have hc' := hc
      rw [BASE_eq] at hc'
      have hw : int32 (prev - BASE) = prev - BASE := by
        rw [BASE_eq]; exact int32_eq_self (by omega) (by omega)
      have hw1 : int32 (x + 1) = x + 1 := int32_eq_self (by omega) (by omega)
      simp only [if_pos hc, hw, hw1]
      have hdone' : ∀ d ∈ done ++ [prev - BASE], 0 ≤ d ∧ d < BASE := by
        intro d hd
        rcases List.mem_append.mp hd with hd | hd
        · exact hdone d hd
        · rw [List.mem_singleton.mp hd, BASE_eq]; omega
      obtain ⟨i1, i2, i3, i4⟩ := ih (done ++ [prev - BASE]) (x + 1) hdone' (by omega)
        (by rw [BASE_eq]; omega) hrest'
      refine ⟨?_, ?_, ?_, ?_⟩
      · intro st hst d hd
        rcases List.mem_cons.mp hst with rfl | hst
        · rcases List.mem_append.mp hd with hd | hd
          · exact hwide d hd
          · rcases List.mem_cons.mp hd with rfl | hd
            · rw [BASE_eq]; omega
            · rcases List.mem_cons.mp hd with rfl | hd
              · rw [BASE_eq]; omega
              · exact hrestw d hd
        · rcases List.mem_cons.mp hst with rfl | hst
          · rcases List.mem_append.mp hd with hd | hd
            · exact hwide d hd
            · rcases List.mem_cons.mp hd with rfl | hd
              · rw [BASE_eq]; omega
              · rcases List.mem_cons.mp hd with rfl | hd
                · rw [BASE_eq]; omega
                · exact hrestw d hd
          · exact i1 st hst d hd
      · intro v hv
        rcases List.mem_cons.mp hv with rfl | hv
        · rw [BASE_eq]; omega
        · rcases List.mem_cons.mp hv with rfl | hv
          · rw [BASE_eq]; omega
          · exact i2 v hv
      · intro c hcm
        rcases List.mem_cons.mp hcm with rfl | hcm
        · right; ring
        · exact i3 c hcm
      · have hne : carry_loop_states (done ++ [prev - BASE]) (x + 1) rest ≠ [] := by
          intro h0'; rw [h0'] at i4; simp at i4
        rw [getLast?_cons_ne_nil _ _ (by simp),
          getLast?_cons_ne_nil _ _ hne, i4, List.append_assoc]
        rfl
    · simp only [if_neg hc]
      have hc' : prev < 1000000000 := by rw [BASE_eq] at hc; omega
      have hdone' : ∀ d ∈ done ++ [prev], 0 ≤ d ∧ d < BASE := by
        intro d hd
        rcases List.mem_append.mp hd with hd | hd
        · exact hdone d hd
        · rw [List.mem_singleton.mp hd, BASE_eq]; omega
      obtain ⟨i1, i2, i3, i4⟩ := ih (done ++ [prev]) x hdone' hx.1
        (by rw [BASE_eq]; omega) hrest'
      refine ⟨?_, i2, ?_, ?_⟩
      · intro st hst d hd
        rcases List.mem_cons.mp hst with rfl | hst
        · rcases List.mem_append.mp hd with hd | hd
          · exact hwide d hd
          · rcases List.mem_cons.mp hd with rfl | hd
            · rw [BASE_eq]; omega
            · rcases List.mem_cons.mp hd with rfl | hd
              · rw [BASE_eq]; omega
              · exact hrestw d hd
        · exact i1 st hst d hd
      · intro c hcm
        rcases List.mem_cons.mp hcm with rfl | hcm
        · left; rfl
        · exact i3 c hcm
      · have hne : carry_loop_states (done ++ [prev]) x rest ≠ [] := by
          intro h0'; rw [h0'] at i4; simp at i4
        rw [getLast?_cons_ne_nil _ _ hne, i4, List.append_assoc]
        rfl

/-! ### Intermediate states of `operator-=` -/

theorem sub_loop_states_nil_right (done ds : List Int) :
    sub_loop_states done ds [] = [done ++ ds] := by
  cases ds <;> rfl

theorem sub_loop_states_cons (done : List Int) (d o : Int) (ds os : List Int) :
    sub_loop_states done (d :: ds) (o :: os) =
      (done ++ d :: ds) :: sub_loop_states (done ++ [int32 (d - o)]) ds os := rfl

theorem sub_loop_raw_cons (d o : Int) (ds os : List Int) :
    sub_loop_raw (d :: ds) (o :: os) = (d - o) :: sub_loop_raw ds os := rfl

theorem sub_loop_states_spec : ∀ (ds os done : List Int), os.length ≤ ds.length →
    (∀ d ∈ done, -BASE ≤ d ∧ d ≤ BASE - 1) →
    (∀ d ∈ ds, 0 ≤ d ∧ d < BASE) → (∀ d ∈ os, 0 ≤ d ∧ d < BASE) →
    (∀ st ∈ sub_loop_states done ds os, ∀ d ∈ st, -BASE ≤ d ∧ d ≤ BASE - 1) ∧
    (∀ v ∈ sub_loop_raw ds os, -BASE ≤ v ∧ v ≤ BASE - 1) ∧
    ∃ r, sub_loop ds os = .ok r ∧ (sub_loop_states done ds os).getLast? = some (done ++ r) := by
  intro ds
  induction ds with
  | nil =>
    intro os done hlen hdone _ _
    have : os = [] := List.length_eq_zero.mp (by simpa using hlen)
    subst this
    refine ⟨?_, by simp [sub_loop_raw], [], rfl, rfl⟩
    intro st hst d hd
    rw [sub_loop_states_nil_right, List.mem_singleton] at hst
    rw [hst, List.append_nil] at hd
    exact hdone d hd
  | cons x ds ih =>
    intro os done hlen hdone hds hos
    have hcur : ∀ d ∈ done ++ x :: ds, -BASE ≤ d ∧ d ≤ BASE - 1 := by
      intro d hd
      rcases List.mem_append.mp hd with hd | hd
      · exact hdone d hd
      · have := hds d hd
        rw [BASE_eq] at this ⊢
        omega
    cases os with
    | nil =>
      refine ⟨?_, by simp [sub_loop_raw], x :: ds, rfl, rfl⟩
      intro st hst d hd
      rw [sub_loop_states_nil_right, List.mem_singleton] at hst
      rw [hst] at hd
      exact hcur d hd
    | cons o os =>
      have hx := hds x (List.mem_cons_self _ _)
      have ho := hos o (List.mem_cons_self _ _)
      rw [BASE_eq] at hx ho
      have hw : int32 (x - o) = x - o := int32_eq_self (by omega) (by omega)
      have hdone' : ∀ d ∈ done ++ [int32 (x - o)], -BASE ≤ d ∧ d ≤ BASE - 1 := by
        intro d hd
        rcases List.mem_append.mp hd with hd | hd
        · exact hdone d hd
        · rw [List.mem_singleton.mp hd, hw, BASE_eq]; omega
      obtain ⟨i1, i2, r, i3, i4⟩ := ih os (done ++ [int32 (x - o)]) (by simpa using hlen) hdone'
        (fun d hd => hds d (List.mem_cons_of_mem _ hd))
        (fun d hd => hos d (List.mem_cons_of_mem _ hd))
      rw [sub_loop_states_cons, sub_loop_raw_cons]
      refine ⟨?_, ?_, int32 (x - o) :: r, by rw [sub_loop_cons, i3], ?_⟩
      · intro st hst d hd
        rcases List.mem_cons.mp hst with rfl | hst
        · exact hcur d hd
        · exact i1 st hst d hd
      · intro v hv
        rcases List.mem_cons.mp hv with rfl | hv
        · rw [BASE_eq]; omega
        · exact i2 v hv
      · have hne : sub_loop_states (done ++ [int32 (x - o)]) ds os ≠ [] := by
          intro h0; rw [h0] at i4; simp at i4
        rw [getLast?_cons_ne_nil _ _ hne, i4, List.append_assoc]
        rfl

theorem borrow_loop_states_nil (done : List Int) (prev : Int) :
    borrow_loop_states done prev [] = [done ++ [prev]] := rfl

theorem borrow_loop_states_cons (done : List Int) (prev d : Int) (rest : List Int) :
    borrow_loop_states done prev (d :: rest) =
      if prev < 0 then
        (done ++ prev :: d :: rest) :: (done ++ int32 (prev + BASE) :: d :: rest) ::
          borrow_loop_states (done ++ [int32 (prev + BASE)]) (int32 (d - 1)) rest
      else (done ++ prev :: d :: rest) :: borrow_loop_states (done ++ [prev]) d rest := rfl

theorem borrow_loop_raw_cons (prev d : Int) (rest : List Int) :
    borrow_loop_raw prev (d :: rest) =
      if prev < 0 then (prev + BASE) :: (d - 1) :: borrow_loop_raw (int32 (d - 1)) rest
      else borrow_loop_raw d rest := rfl

theorem borrow_loop_borrows_cons (prev d : Int) (rest : List Int) :
    borrow_loop_borrows prev (d :: rest) =
      if prev < 0 then (d - int32 (d - 1)) :: borrow_loop_borrows (int32 (d - 1)) rest
      else 0 :: borrow_loop_borrows d rest := rfl

theorem borrow_loop_states_spec : ∀ (rest done : List Int) (prev : Int),
    (∀ d ∈ done, 0 ≤ d ∧ d < BASE) → -BASE ≤ prev → prev ≤ BASE - 1 →
    (∀ d ∈ rest, -BASE < d ∧ d ≤ BASE - 1) →
    (∀ st ∈ borrow_loop_states done prev rest, ∀ d ∈ st, -BASE ≤ d ∧ d ≤ BASE - 1) ∧
    (∀ v ∈ borrow_loop_raw prev rest, -BASE ≤ v ∧ v ≤ BASE - 1) ∧
    (∀ c ∈ borrow_loop_borrows prev rest, c = 0 ∨ c = 1) ∧
    (borrow_loop_states done prev rest).getLast? = some (done ++ borrow_loop prev rest) := by
  intro rest
  induction rest with
  | nil =>
    intro done prev hdone h0 h1 _
    refine ⟨?_, by simp [borrow_loop_raw], by simp [borrow_loop_borrows], rfl⟩
    intro st hst d hd
    rw [borrow_loop_states_nil, List.mem_singleton] at hst
    rw [hst] at hd
    rcases List.mem_append.mp hd with hd | hd
    · have := hdone d hd
      rw [BASE_eq] at this ⊢; omega
    · rw [List.mem_singleton.mp hd]; exact ⟨h0, h1⟩
  | cons x rest ih =>
    intro done prev hdone h0 h1 hrest
    have hx := hrest x (List.mem_cons_self _ _)
    have hrest' : ∀ d ∈ rest, -BASE < d ∧ d ≤ BASE - 1 :=
      fun d hd => hrest d (List.mem_cons_of_mem _ hd)
    have hwide : ∀ d ∈ done, -BASE ≤ d ∧ d ≤ BASE - 1 := by
      intro d hd
      have := hdone d hd
      rw [BASE_eq] at this ⊢; omega
    have hrestw : ∀ d ∈ rest, -BASE ≤ d ∧ d ≤ BASE - 1 := by
      intro d hd
      have := hrest' d hd
      omega
    rw [BASE_eq] at h0 h1 hx
    rw [borrow_loop_states_cons, borrow_loop_raw_cons, borrow_loop_borrows_cons,
      borrow_loop_cons]
    by_cases hc : prev < 0
    · have hw : int32 (prev + BASE) = prev + BASE := by
        rw [BASE_eq]; exact int32_eq_self (by omega) (by omega)
      have hw1 : int32 (x - 1) = x - 1 := int32_eq_self (by omega) (by omega)
      simp only [if_pos hc, hw, hw1]
      have hdone' : ∀ d ∈ done ++ [prev + BASE], 0 ≤ d ∧ d < BASE := by
        intro d hd
        rcases List.mem_append.mp hd with hd | hd
        · exact hdone d hd
        · rw [List.mem_singleton.mp hd, BASE_eq]; omega
      obtain ⟨i1, i2, i3, i4⟩ := ih (done ++ [prev + BASE]) (x - 1) hdone'
        (by rw [BASE_eq]; omega) (by rw [BASE_eq]; omega) hrest'
      refine ⟨?_, ?_, ?_, ?_⟩
      · intro st hst d hd
        rcases List.mem_cons.mp hst with rfl | hst
        · rcases List.mem_append.mp hd with hd | hd
          · exact hwide d hd
          · rcases List.mem_cons.mp hd with rfl | hd
            · rw [BASE_eq]; omega
            · rcases List.mem_cons.mp hd with rfl | hd
              · rw [BASE_eq]; omega
              · exact hrestw d hd
        · rcases List.mem_cons.mp hst with rfl | hst
          · rcases List.mem_append.mp hd with hd | hd
            · exact hwide d hd
            · rcases List.mem_cons.mp hd with rfl | hd
              · rw [BASE_eq]; omega
              · rcases List.mem_cons.mp hd with rfl | hd
                · rw [BASE_eq]; omega
                · exact hrestw d hd
          · exact i1 st hst d hd
      · intro v hv
        rcases List.mem_cons.mp hv with rfl | hv
        · rw [BASE_eq]; omega
        · rcases List.mem_cons.mp hv with rfl | hv
          · rw [BASE_eq]; omega
          · exact i2 v hv
      · intro c hcm
        rcases List.mem_cons.mp hcm with rfl | hcm
        · right; ring
        · exact i3 c hcm
      · have hne : borrow_loop_states (done ++ [prev + BASE]) (x - 1) rest ≠ [] := by
          intro h0'; rw [h0'] at i4; simp at i4
        rw [getLast?_cons_ne_nil _ _ (by simp),
          getLast?_cons_ne_nil _ _ hne, i4, List.append_assoc]
        rfl
    · simp only [if_neg hc]
      have hdone' : ∀ d ∈ done ++ [prev], 0 ≤ d ∧ d < BASE := by
        intro d hd
        rcases List.mem_append.mp hd with hd | hd
        · exact hdone d hd
        · rw [List.mem_singleton.mp hd, BASE_eq]; omega
      obtain ⟨i1, i2, i3, i4⟩ := ih (done ++ [prev]) x hdone'
        (by rw [BASE_eq]; omega) (by rw [BASE_eq]; omega) hrest'
      refine ⟨?_, i2, ?_, ?_⟩
      · intro st hst d hd
        rcases List.mem_cons.mp hst with rfl | hst
        · rcases List.mem_append.mp hd with hd | hd
          · exact hwide d hd
          · rcases List.mem_cons.mp hd with rfl | hd
            · rw [BASE_eq]; omega
            · rcases List.mem_cons.mp hd with rfl | hd
              · rw [BASE_eq]; omega
              · exact hrestw d hd
        · exact i1 st hst d hd
      · intro c hcm
        rcases List.mem_cons.mp hcm with rfl | hcm
        · left; rfl
        · exact i3 c hcm
      · have hne : borrow_loop_states (done ++ [prev]) x rest ≠ [] := by
          intro h0'; rw [h0'] at i4; simp at i4
        rw [getLast?_cons_ne_nil _ _ hne, i4, List.append_assoc]
        rfl

/-! ### The vector before trimming -/

theorem add_phase_spec (a b : UnsignedBigint) (ha : a.digits ≠ [])
    (hra : ∀ d ∈ a.digits, 0 ≤ d ∧ d < BASE) (hrb : ∀ d ∈ b.digits, 0 ≤ d ∧ d < BASE) :
    ∃ x mid, add_loop (resize a.digits (max a.digits.length b.digits.length + 1) 0) b.digits
        = .ok (x :: (mid ++ [0])) ∧
      (∀ d ∈ x :: mid, 0 ≤ d ∧ d ≤ 2 * BASE - 2) ∧
      (∀ d ∈ resize a.digits (max a.digits.length b.digits.length + 1) 0, 0 ≤ d ∧ d < BASE) ∧
      b.digits.length
        ≤ (resize a.digits (max a.digits.length b.digits.length + 1) 0).length := by
  have hxs : ∀ d ∈ a.digits ++ List.replicate
      (max a.digits.length b.digits.length - a.digits.length) 0, 0 ≤ d ∧ d < BASE := by
    intro d hd
    rcases List.mem_append.mp hd with hd | hd
    · exact hra d hd
    · rw [List.eq_of_mem_replicate hd]; exact ⟨le_refl _, BASE_pos⟩
  obtain ⟨r, h1, h2, h3, _⟩ := add_loop_spec
    (a.digits ++ List.replicate (max a.digits.length b.digits.length - a.digits.length) 0)
    b.digits (by simp only [List.length_append, List.length_replicate]; omega) hxs hrb
  have hstep := add_loop_append _ _ _ [0] h1
  have hrlen : 0 < r.length := by
    rw [h2]; simp only [List.length_append]
    have := List.length_pos.mpr ha; omega
  obtain ⟨x, mid, rfl⟩ : ∃ x mid, r = x :: mid := by
    cases r with
    | nil => simp at hrlen
    | cons x mid => exact ⟨x, mid, rfl⟩
  rw [resize_grow _ _ (le_max_left _ _)]
  refine ⟨x, mid, hstep, h3, ?_, ?_⟩
  · intro d hd
    rcases List.mem_append.mp hd with hd | hd
    · exact hxs d hd
    · rw [List.mem_singleton.mp hd]; exact ⟨le_refl _, BASE_pos⟩
  · simp only [List.length_append, List.length_replicate, List.length_singleton]; omega

theorem sub_untrimmed_spec (a b : UnsignedBigint) (ha : a.canonical) (hb : b.canonical)
    (hv : b.value ≤ a.value) :
    b.digits.length ≤ a.digits.length ∧
    ∃ x rest, sub_loop a.digits b.digits = .ok (x :: rest) ∧
      (∀ d ∈ x :: rest, -BASE < d ∧ d < BASE) ∧
      a.sub_untrimmed b = .ok (borrow_loop x rest) ∧
      (∀ d ∈ borrow_loop x rest, 0 ≤ d ∧ d < BASE) := by
  have hlen : b.digits.length ≤ a.digits.length := by
    by_contra hlt
    have := canonical_length_lt a b ha hb (by omega)
    omega
  obtain ⟨r, h1, h2, h3, h4⟩ := sub_loop_spec a.digits b.digits hlen ha.2.1 hb.2.1
  have hrlen : 0 < r.length := by
    rw [h2]; exact List.length_pos.mpr ha.1
  obtain ⟨x, rest, rfl⟩ : ∃ x rest, r = x :: rest := by
    cases r with
    | nil => simp at hrlen
    | cons x rest => exact ⟨x, rest, rfl⟩
  have hx := h3 x (List.mem_cons_self _ _)
  obtain ⟨init, t, i1, i2, i3, i4, i5, i6⟩ := borrow_loop_spec rest x (le_of_lt hx.1) hx.2
    (fun d hd => h3 d (List.mem_cons_of_mem _ hd))
  have hval : limbs_value (init ++ [t]) = a.value - b.value := by
    rw [← i1, i6, h4]; rfl
  have ht : 0 ≤ t := by
    by_contra hneg
    rw [limbs_value_append, limbs_value_cons, limbs_value_nil] at hval
    have hb1 := (limbs_value_bounds init i2).2
    have hp := BASE_pow_pos init.length
    have : BASE ^ init.length * (t + BASE * 0) ≤ BASE ^ init.length * (-1) :=
      mul_le_mul_of_nonneg_left (by omega) hp.le
    linarith
  refine ⟨hlen, x, rest, h1, h3, ?_, ?_⟩
  · unfold UnsignedBigint.sub_untrimmed
    rw [h1]
  · rw [i1]
    intro d hd
    rcases List.mem_append.mp hd with hd | hd
    · exact i2 d hd
    · rw [List.mem_singleton.mp hd]; exact ⟨ht, i4⟩

/-! ## The claims on the carry pass and the borrow pass -/

/-- C19: a single forward carry pass suffices and never overflows the signed 32-bit limb
type. For canonical `a` and `b`, during `a += b`: every limb of every state of the add phase,
every exact sum it forms, and every limb after it is at most `2 * (10^9 - 1)`; every limb of
every state of the carry pass, and every exact result it forms, is at most
`2 * (10^9 - 1) + 1 < 2^31` (and none is negative); the carry moved into the next limb is
`0` or `1`; and after the pass, before trimming, every limb lies in `[0, 10^9)`. -/
theorem carry_pass_in_range (a b : UnsignedBigint) (ha : a.canonical) (hb : b.canonical) :
    ∃ x rest,
      add_loop (resize a.digits (max a.digits.length b.digits.length + 1) 0) b.digits
        = .ok (x :: rest) ∧
      (add_loop_states [] (resize a.digits (max a.digits.length b.digits.length + 1) 0)
        b.digits).getLast? = some (x :: rest) ∧
      (∀ st ∈ add_loop_states []
          (resize a.digits (max a.digits.length b.digits.length + 1) 0) b.digits,
        ∀ d ∈ st, 0 ≤ d ∧ d ≤ 2 * (BASE - 1)) ∧
      (∀ v ∈ add_loop_raw (resize a.digits (max a.digits.length b.digits.length + 1) 0)
          b.digits, 0 ≤ v ∧ v ≤ 2 * (BASE - 1)) ∧
      (∀ d ∈ x :: rest, 0 ≤ d ∧ d ≤ 2 * (BASE - 1)) ∧
      (∀ st ∈ carry_loop_states [] x rest, ∀ d ∈ st, 0 ≤ d ∧ d ≤ 2 * (BASE - 1) + 1) ∧
      (∀ v ∈ carry_loop_raw x rest, 0 ≤ v ∧ v ≤ 2 * (BASE - 1) + 1) ∧
      2 * (BASE - 1) + 1 < 2147483648 ∧
      (∀ c ∈ carry_loop_carries x rest, c = 0 ∨ c = 1) ∧
      (carry_loop_states [] x rest).getLast? = some (carry_loop x rest) ∧
      a.add_untrimmed b = .ok (carry_loop x rest) ∧
      (∀ d ∈ carry_loop x rest, 0 ≤ d ∧ d < BASE) := by
  obtain ⟨x, mid, h1, h2, h3, h4⟩ := add_phase_spec a b ha.1 ha.2.1 hb.2.1
  obtain ⟨s1, s2, r, s3, s4⟩ := add_loop_states_spec _ b.digits [] h4 (by simp) h3 hb.2.1
  rw [h1] at s3
  have hr : r = x :: (mid ++ [0]) := (Except.ok.inj s3).symm
  subst hr
  have hall : ∀ d ∈ x :: (mid ++ [0]), 0 ≤ d ∧ d ≤ 2 * (BASE - 1) := by
    intro d hd
    rw [← List.cons_append] at hd
    rcases List.mem_append.mp hd with hd | hd
    · have := h2 d hd
      rw [BASE_eq] at this ⊢; omega
    · rw [List.mem_singleton.mp hd]; decide
  have hx := hall x (List.mem_cons_self _ _)
  obtain ⟨c1, c2, c3, c4⟩ := carry_loop_states_spec (mid ++ [0]) [] x (by simp) hx.1
    (by have := hx.2; omega) (fun d hd => hall d (List.mem_cons_of_mem _ hd))
  have hx2 := h2 x (List.mem_cons_self _ _)
  obtain ⟨f1, _, _⟩ := carry_loop_spec mid x hx2.1 (by have := hx2.2; omega)
    (fun d hd => h2 d (List.mem_cons_of_mem _ hd))
  refine ⟨x, mid ++ [0], h1, s4, s1, s2, hall, c1, c2, by decide, c3, c4, ?_, f1⟩
  unfold UnsignedBigint.add_untrimmed
  rw [h1]

theorem carry_pass_in_range_witness :
    (UnsignedBigint.mk [999999999, 999999999]).canonical ∧
    (UnsignedBigint.mk [999999999]).canonical ∧
    add_loop (resize [999999999, 999999999] 3 0) [999999999]
      = .ok [1999999998, 999999999, 0] ∧
    carry_loop_states [] 1999999998 [999999999, 0]
      = [[1999999998, 999999999, 0], [999999998, 999999999, 0], [999999998, 1000000000, 0],
          [999999998, 0, 0], [999999998, 0, 1]] ∧
    ∃ x rest,
      add_loop (resize (UnsignedBigint.mk [999999999, 999999999]).digits
          (max (UnsignedBigint.mk [999999999, 999999999]).digits.length
            (UnsignedBigint.mk [999999999]).digits.length + 1) 0)
          (UnsignedBigint.mk [999999999]).digits = .ok (x :: rest) ∧
      (∀ st ∈ carry_loop_states [] x rest, ∀ d ∈ st, 0 ≤ d ∧ d ≤ 2 * (BASE - 1) + 1) ∧
      (∀ c ∈ carry_loop_carries x rest, c = 0 ∨ c = 1) ∧
      (UnsignedBigint.mk [999999999, 999999999]).add_untrimmed ⟨[999999999]⟩
        = .ok (carry_loop x rest) ∧
      (∀ d ∈ carry_loop x rest, 0 ≤ d ∧ d < BASE) := by
  refine ⟨by decide, by decide, rfl, rfl, ?_⟩
  obtain ⟨x, rest, h1, _, _, _, _, h6, _, _, h9, _, h11, h12⟩ :=
    carry_pass_in_range ⟨[999999999, 999999999]⟩ ⟨[999999999]⟩ (by decide) (by decide)
  exact ⟨x, rest, h1, h6, h9, h11, h12⟩

/-- C20: the borrow pass of subtraction stays in range and ends non-negative on the
documented domain. For canonical `a` and `b` with `value a >= value b`, `b` has no more limbs
than `a`, so the first loop of `a -= b` touches no position outside `a`; every limb of every
state of either loop, and every exact result either loop forms, lies in
`[-10^9, 10^9 - 1]`; each borrow taken from the next limb is `0` or `1`; and after the pass,
before trimming, every limb, the top one included, lies in `[0, 10^9)`. -/
theorem borrow_pass_in_range (a b : UnsignedBigint) (ha : a.canonical) (hb : b.canonical)
    (hv : b.value ≤ a.value) :
    b.digits.length ≤ a.digits.length ∧
    ∃ x rest,
      sub_loop a.digits b.digits = .ok (x :: rest) ∧
      (sub_loop_states [] a.digits b.digits).getLast? = some (x :: rest) ∧
      (∀ st ∈ sub_loop_states [] a.digits b.digits, ∀ d ∈ st, -BASE ≤ d ∧ d ≤ BASE - 1) ∧
      (∀ v ∈ sub_loop_raw a.digits b.digits, -BASE ≤ v ∧ v ≤ BASE - 1) ∧
      (∀ st ∈ borrow_loop_states [] x rest, ∀ d ∈ st, -BASE ≤ d ∧ d ≤ BASE - 1) ∧
      (∀ v ∈ borrow_loop_raw x rest, -BASE ≤ v ∧ v ≤ BASE - 1) ∧
      (∀ c ∈ borrow_loop_borrows x rest, c = 0 ∨ c = 1) ∧
      (borrow_loop_states [] x rest).getLast? = some (borrow_loop x rest) ∧
      a.sub_untrimmed b = .ok (borrow_loop x rest) ∧
      (∀ d ∈ borrow_loop x rest, 0 ≤ d ∧ d < BASE) := by
  obtain ⟨hlen, x, rest, h1, h2, h3, h4⟩ := sub_untrimmed_spec a b ha hb hv
  obtain ⟨s1, s2, r, s3, s4⟩ := sub_loop_states_spec a.digits b.digits [] hlen (by simp)
    ha.2.1 hb.2.1
  rw [h1] at s3
  have hr : r = x :: rest := (Except.ok.inj s3).symm
  subst hr
  have hx := h2 x (List.mem_cons_self _ _)
  obtain ⟨c1, c2, c3, c4⟩ := borrow_loop_states_spec rest [] x (by simp) (le_of_lt hx.1)
    (by have := hx.2; omega)
    (fun d hd => by have := h2 d (List.mem_cons_of_mem _ hd); omega)
  exact ⟨hlen, x, rest, h1, s4, s1, s2, c1, c2, c3, c4, h3, h4⟩

theorem borrow_pass_in_range_witness :
    (UnsignedBigint.mk [0, 0, 1]).canonical ∧ (UnsignedBigint.mk [1]).canonical ∧
    (UnsignedBigint.mk [1]).value ≤ (UnsignedBigint.mk [0, 0, 1]).value ∧
    sub_loop [0, 0, 1] [1] = .ok [-1, 0, 1] ∧
    borrow_loop_states [] (-1) [0, 1]
      = [[-1, 0, 1], [999999999, 0, 1], [999999999, -1, 1], [999999999, 999999999, 1],
          [999999999, 999999999, 0]] ∧
    ∃ x rest,
      sub_loop (UnsignedBigint.mk [0, 0, 1]).digits (UnsignedBigint.mk [1]).digits
        = .ok (x :: rest) ∧
      (∀ st ∈ borrow_loop_states [] x rest, ∀ d ∈ st, -BASE ≤ d ∧ d ≤ BASE - 1) ∧
      (∀ c ∈ borrow_loop_borrows x rest, c = 0 ∨ c = 1) ∧
      (UnsignedBigint.mk [0, 0, 1]).sub_untrimmed ⟨[1]⟩ = .ok (borrow_loop x rest) ∧
      (∀ d ∈ borrow_loop x rest, 0 ≤ d ∧ d < BASE) := by
  refine ⟨by decide, by decide, by decide, rfl, rfl, ?_⟩
  obtain ⟨_, x, rest, h1, _, _, _, h5, _, h7, _, h9, h10⟩ :=
    borrow_pass_in_range ⟨[0, 0, 1]⟩ ⟨[1]⟩ (by decide) (by decide) (by decide)
  exact ⟨x, rest, h1, h5, h7, h9, h10⟩

end MMbigint
